import Mathlib

/-!
Verification development for the URL core of the wpull workspace
(`wbull.format.url`): percent-encoding (`encode.py`), dot-segment path
flattening (`path.py`), component normalization (`norm.py`) and the
structured URL model with its parser and serializer (`parse.py`).

Python strings are modelled as `List Char` (`PyStr`); byte strings as
`List Nat` with every byte below 256.  Functions that can raise return
`Option` or a dedicated result type carrying the raise site.  The text
encoding is fixed to UTF-8 with strict error handling, the defaults used
by `URLInfo.parse` and the setting fixed by the claims under scrutiny.
-/

namespace Wbull

/-- Python `str` modelled as a list of unicode scalar values. -/
abbrev PyStr := List Char

/-- Coerce a Lean string literal to the `PyStr` model. -/
def pystr (s : String) : PyStr := s.data

/-- Code point of a character. -/
def cp (c : Char) : Nat := c.toNat

/-- ASCII test (`< 0x80`), the predicate used by `urllib`'s `_asciire`. -/
def isAsciiCp (c : Char) : Bool := cp c < 0x80

/-- ASCII-range lower casing, modelling Python `str.lower` on the ASCII
characters that all inputs relevant here consist of.  (CPython lowercases
the full Unicode range; outside ASCII that mapping never produces the
ASCII scheme or hostname strings these claims are about, so it is
modelled as the identity there.) -/
def pyLowerChar (c : Char) : Char :=
  if 65 ≤ cp c ∧ cp c ≤ 90 then Char.ofNat (cp c + 32) else c

/-- Python `str.lower`, see `pyLowerChar`. -/
def pyLower (s : PyStr) : PyStr := s.map pyLowerChar

/-- ASCII-range upper casing (used by `str.upper` on matched hex digits). -/
def pyUpperChar (c : Char) : Char :=
  if 97 ≤ cp c ∧ cp c ≤ 122 then Char.ofNat (cp c - 32) else c

/-- Characters Python `str.strip` removes (`str.isspace`). -/
def pyIsSpace (c : Char) : Bool :=
  cp c ∈ [0x09, 0x0A, 0x0B, 0x0C, 0x0D, 0x1C, 0x1D, 0x1E, 0x1F, 0x20,
          0x85, 0xA0, 0x1680, 0x2000, 0x2001, 0x2002, 0x2003, 0x2004,
          0x2005, 0x2006, 0x2007, 0x2008, 0x2009, 0x200A, 0x2028,
          0x2029, 0x202F, 0x205F, 0x3000]

/-- Python `str.strip()` with no argument. -/
def pyStrip (s : PyStr) : PyStr :=
  ((s.dropWhile pyIsSpace).reverse.dropWhile pyIsSpace).reverse

/-- Python `str.partition(sep)` for a one-character separator: splits at
the first occurrence; the `Bool` records whether the separator was found. -/
def pyPartition : PyStr → Char → PyStr × Bool × PyStr
  | [], _ => ([], false, [])
  | x :: xs, c =>
    if x = c then ([], true, xs)
    else
      let r := pyPartition xs c
      (x :: r.1, r.2.1, r.2.2)

/-- Python `str.rpartition(sep)` for a one-character separator: splits at
the last occurrence; when the separator is absent the whole string is the
third component, as in Python. -/
def pyRPartition (s : PyStr) (c : Char) : PyStr × Bool × PyStr :=
  let r := pyPartition s.reverse c
  if r.2.1 then (r.2.2.reverse, true, r.1.reverse) else ([], false, s)

/-- Python `str.split(sep)` for a one-character separator (keeps empty
parts, `''.split(sep) == ['']`). -/
def pySplit : PyStr → Char → List PyStr
  | [], _ => [[]]
  | x :: xs, c =>
    if x = c then [] :: pySplit xs c
    else
      match pySplit xs c with
      | h :: t => (x :: h) :: t
      | [] => [[x]]

/-- Join a list of strings with a one-character separator
(`sep.join(parts)`). -/
def pyJoin : List PyStr → Char → PyStr
  | [], _ => []
  | [x], _ => x
  | x :: y :: t, c => x ++ c :: pyJoin (y :: t) c

/-- Python `str.replace(a, b)` for one-character arguments. -/
def pyReplaceChar (s : PyStr) (a b : Char) : PyStr :=
  s.map fun c => if c = a then b else c

/-- Digits of a natural number in the given base (2 ≤ base), most
significant first, as digit values.  Structural on a fuel argument so
that it evaluates inside the kernel; `n + 1` fuel always suffices. -/
def natDigitsAux (base : Nat) : Nat → Nat → List Nat
  | 0, _ => []
  | f + 1, n =>
    if n < base then [n]
    else natDigitsAux base f (n / base) ++ [n % base]

/-- See `natDigitsAux`. -/
def natDigits (base n : Nat) : List Nat := natDigitsAux base (n + 1) n

/-- Decimal digits of a natural number, most significant first. -/
def natToDec (n : Nat) : PyStr :=
  (natDigits 10 n).map fun d => Char.ofNat (48 + d)

/-- Python `str(int)` rendering, including a sign for negatives. -/
def intToDec (i : Int) : PyStr :=
  if i < 0 then '-' :: natToDec i.natAbs else natToDec i.natAbs

/-- Lowercase hex digits of a natural number (`'%x' % n`). -/
def natToHexLower (n : Nat) : PyStr :=
  (natDigits 16 n).map fun d => (pystr "0123456789abcdef").getD d '0'

/-- Uppercase hex digit character for a value below 16. -/
def hexUpperDigit (n : Nat) : Char := (pystr "0123456789ABCDEF").getD n '0'

/-- Whether a character is an ASCII hex digit. -/
def isHexDigit (c : Char) : Bool :=
  (48 ≤ cp c ∧ cp c ≤ 57) ∨ (65 ≤ cp c ∧ cp c ≤ 70) ∨ (97 ≤ cp c ∧ cp c ≤ 102)

/-- Value of an ASCII hex digit. -/
def hexVal (c : Char) : Nat :=
  if 48 ≤ cp c ∧ cp c ≤ 57 then cp c - 48
  else if 65 ≤ cp c ∧ cp c ≤ 70 then cp c - 55
  else cp c - 87

/-- Whether a character is an ASCII decimal digit. -/
def isDecDigit (c : Char) : Bool := 48 ≤ cp c ∧ cp c ≤ 57

/-! ### Encode sets (`encode.py`)

Each set is the set of printable-ASCII byte values that must be escaped in
addition to the control/high bytes. -/

/-- Bytes of `' "#<>?`'` (WHATWG default/path set). -/
def DEFAULT_ENCODE_SET : List Nat := [0x20, 0x22, 0x23, 0x3C, 0x3E, 0x3F, 0x60]

/-- Password set: default plus `/`, `@`, `\`. -/
def PASSWORD_ENCODE_SET : List Nat := DEFAULT_ENCODE_SET ++ [0x2F, 0x40, 0x5C]

/-- Username set: password set plus `:`. -/
def USERNAME_ENCODE_SET : List Nat := PASSWORD_ENCODE_SET ++ [0x3A]

/-- Query set: bytes of `'"#<>`'` (space excluded so it can become `+`). -/
def QUERY_ENCODE_SET : List Nat := [0x22, 0x23, 0x3C, 0x3E, 0x60]

/-- Fragment set: bytes of `' "<>`'`. -/
def FRAGMENT_ENCODE_SET : List Nat := [0x20, 0x22, 0x3C, 0x3E, 0x60]

/-- Query-key set: query set plus `&+%=`. -/
def QUERY_KEY_ENCODE_SET : List Nat := QUERY_ENCODE_SET ++ [0x26, 0x2B, 0x25, 0x3D]

/-- Query-value set: query set plus `&+%`. -/
def QUERY_VALUE_ENCODE_SET : List Nat := QUERY_ENCODE_SET ++ [0x26, 0x2B, 0x25]

/-- Forbidden hostname characters, the string `'#%/:?@[\] '`. -/
def FORBIDDEN_HOSTNAME_CHARS : PyStr := pystr "#%/:?@[\\] "

/-! ### Percent-encoding (`encode.py`) -/

/-- Image of one byte under `PercentEncoderMap.__missing__`: bytes below
0x20, above 0x7E, or in the encode set become `%XX` with uppercase hex;
every other byte passes through.  (The `defaultdict` cache is a
transparent memoization and is dropped.) -/
def percentEncodeByteImg (encodeSet : List Nat) (b : Nat) : List Nat :=
  if b < 0x20 ∨ b > 0x7E ∨ b ∈ encodeSet then
    [0x25, cp (hexUpperDigit (b / 16)), cp (hexUpperDigit (b % 16))]
  else [b]

/-- `percent_encode_bytes`: per-byte mapping joined in order. -/
def percentEncodeBytes (data : List Nat) (encodeSet : List Nat) : List Nat :=
  (data.map (percentEncodeByteImg encodeSet)).flatten

/-- UTF-8 bytes of one scalar value. -/
def utf8EncodeChar (c : Char) : List Nat :=
  let n := cp c
  if n < 0x80 then [n]
  else if n < 0x800 then [0xC0 + n / 64, 0x80 + n % 64]
  else if n < 0x10000 then
    [0xE0 + n / 4096, 0x80 + n / 64 % 64, 0x80 + n % 64]
  else
    [0xF0 + n / 262144, 0x80 + n / 4096 % 64, 0x80 + n / 64 % 64, 0x80 + n % 64]

/-- `str.encode('utf-8')` (total: `PyStr` holds no surrogates). -/
def utf8Encode (s : PyStr) : List Nat := (s.map utf8EncodeChar).flatten

/-- Decode a byte list known to be ASCII back to characters
(the final `.decode('ascii')` of `percent_encode`, whose output bytes are
all printable ASCII). -/
def asciiBytesToChars (bs : List Nat) : PyStr := bs.map Char.ofNat

/-- `percent_encode(text, encode_set)` with UTF-8 text encoding. -/
def percentEncode (text : PyStr) (encodeSet : List Nat) : PyStr :=
  asciiBytesToChars (percentEncodeBytes (utf8Encode text) encodeSet)

/-- `percent_encode_plus`: percent-encode then turn spaces into `+`. -/
def percentEncodePlus (text : PyStr) (encodeSet : List Nat) : PyStr :=
  pyReplaceChar (percentEncode text encodeSet) ' ' '+'

/-- `uppercase_percent_encoding`: rewrite every `%xx` hex escape to
uppercase, scanning left to right without overlap as `re.sub` does. -/
def uppercasePercentEncoding : PyStr → PyStr
  | [] => []
  | '%' :: a :: b :: t =>
    if isHexDigit a ∧ isHexDigit b then
      '%' :: pyUpperChar a :: pyUpperChar b :: uppercasePercentEncoding t
    else '%' :: uppercasePercentEncoding (a :: b :: t)
  | c :: rest => c :: uppercasePercentEncoding rest

/-! ### UTF-8 decoding (`bytes.decode('utf-8', errors)`)

Strict mode returns `none` on the first invalid sequence; replace mode
substitutes one U+FFFD per maximal invalid subsequence, as CPython does. -/

/-- The replacement character U+FFFD. -/
def replChar : Char := Char.ofNat 0xFFFD

/-- Whether `c` is a UTF-8 continuation byte. -/
def isCont (c : Nat) : Bool := 0x80 ≤ c ∧ c ≤ 0xBF

/-- Valid range of the first continuation byte after lead byte `lead`
(narrowed for 0xE0/0xED/0xF0/0xF4 to exclude overlong forms, surrogates
and values above U+10FFFF). -/
def utf8ContOk (lead c : Nat) : Bool :=
  if lead = 0xE0 then 0xA0 ≤ c ∧ c ≤ 0xBF
  else if lead = 0xED then 0x80 ≤ c ∧ c ≤ 0x9F
  else if lead = 0xF0 then 0x90 ≤ c ∧ c ≤ 0xBF
  else if lead = 0xF4 then 0x80 ≤ c ∧ c ≤ 0x8F
  else isCont c

/-- Number of continuation bytes a lead byte announces (0 marks an
invalid lead byte: stray continuations, overlong leads 0xC0/0xC1, and
values above 0xF4). -/
def utf8NeedCont (b : Nat) : Nat :=
  if 0xC2 ≤ b ∧ b ≤ 0xDF then 1
  else if 0xE0 ≤ b ∧ b ≤ 0xEF then 2
  else if 0xF0 ≤ b ∧ b ≤ 0xF4 then 3
  else 0

/-- Initial accumulator value carried by a lead byte. -/
def utf8LeadVal (b : Nat) : Nat :=
  b - (if utf8NeedCont b = 1 then 0xC0 else if utf8NeedCont b = 2 then 0xE0 else 0xF0)

/-- Decoding loop, one byte per step.  The state carries an unfinished
multi-byte sequence: lead byte, number of continuations consumed,
accumulated value.  In replace mode an invalid continuation ends the
maximal invalid subsequence with one U+FFFD and the offending byte is
re-examined as a fresh lead, as CPython does. -/
def utf8Go (strict : Bool) : Option (Nat × Nat × Nat) → List Nat → Option PyStr
  | none, [] => some []
  | some _, [] => if strict then none else some [replChar]
  | none, b :: rest =>
    if b < 0x80 then (utf8Go strict none rest).map (Char.ofNat b :: ·)
    else if utf8NeedCont b = 0 then
      if strict then none else (utf8Go strict none rest).map (replChar :: ·)
    else utf8Go strict (some (b, 0, utf8LeadVal b)) rest
  | some (lead, got, acc), b :: rest =>
    let ok := if got = 0 then utf8ContOk lead b else isCont b
    if ok then
      let acc' := acc * 64 + (b - 0x80)
      if got + 1 = utf8NeedCont lead then
        (utf8Go strict none rest).map (Char.ofNat acc' :: ·)
      else utf8Go strict (some (lead, got + 1, acc')) rest
    else if strict then none
    else if b < 0x80 then
      (utf8Go strict none rest).map (fun t => replChar :: Char.ofNat b :: t)
    else if utf8NeedCont b = 0 then
      (utf8Go strict none rest).map (fun t => replChar :: replChar :: t)
    else (utf8Go strict (some (b, 0, utf8LeadVal b)) rest).map (replChar :: ·)

/-- Decode UTF-8 bytes; `strict` selects `errors='strict'` (`none` on
failure) versus `errors='replace'`. -/
def utf8DecodeE (strict : Bool) (l : List Nat) : Option PyStr :=
  utf8Go strict none l

/-! ### Percent decoding (`urllib.parse.unquote`, bound as `percent_decode`)

`unquote` splits the input into maximal ASCII chunks; inside a chunk it
splits on `%`, turns well-formed two-hex-digit escapes into bytes, keeps
malformed items literally (`%` plus the item), and decodes the chunk's
byte string with the requested errors mode.  Non-ASCII characters pass
through untouched. -/

/-- Byte expansion of one `%`-item inside an ASCII chunk
(the loop body of `_unquote_impl` / `unquote_to_bytes`). -/
def unquoteItemBytes (item : PyStr) : List Nat :=
  match item with
  | a :: b :: t =>
    if isHexDigit a ∧ isHexDigit b then (hexVal a * 16 + hexVal b) :: t.map cp
    else 0x25 :: item.map cp
  | _ => 0x25 :: item.map cp

/-- Byte string of one maximal ASCII chunk after `%`-unescaping. -/
def unquoteChunkBytes (chunk : PyStr) : List Nat :=
  match pySplit chunk '%' with
  | [] => []
  | b0 :: items => b0.map cp ++ (items.map unquoteItemBytes).flatten

/-- Split a string into maximal runs of characters agreeing on the given
predicate, tagging each run with the predicate's value (the `_asciire`
alternation of `unquote`). -/
def runsBy (p : Char → Bool) : PyStr → List (Bool × PyStr)
  | [] => []
  | c :: rest =>
    match runsBy p rest with
    | (b, seg) :: t => if p c = b then (b, c :: seg) :: t else (p c, [c]) :: (b, seg) :: t
    | [] => [(p c, [c])]

/-- Main loop of `unquote`: ASCII runs are escape-decoded to bytes and
byte-decoded; non-ASCII runs pass through untouched. -/
def unquoteSegs (strict : Bool) : List (Bool × PyStr) → Option PyStr
  | [] => some []
  | (true, run) :: t =>
    match utf8DecodeE strict (unquoteChunkBytes run) with
    | none => none
    | some d =>
      match unquoteSegs strict t with
      | none => none
      | some r => some (d ++ r)
  | (false, run) :: t => (unquoteSegs strict t).map (run ++ ·)

/-- `percent_decode` (= `urllib.parse.unquote`) with UTF-8 text encoding;
`strict` is true for `errors='strict'` (what `URLInfo.parse` passes) and
false for the default `errors='replace'`. -/
def percentDecode (text : PyStr) (strict : Bool) : Option PyStr :=
  if '%' ∈ text then unquoteSegs strict (runsBy isAsciiCp text) else some text

/-- `percent_decode_plus` (= `urllib.parse.unquote_plus`): replace `+`
with space, then decode. -/
def percentDecodePlus (text : PyStr) (strict : Bool) : Option PyStr :=
  percentDecode (pyReplaceChar text '+' ' ') strict

/-! ### Path flattening (`path.py`) and component normalization (`norm.py`) -/

/-- Loop body of `flatten_path`: `.` is dropped, `..` pops the last
retained segment when one exists, everything else is appended. -/
def flattenStep (acc : List PyStr) (part : PyStr) : List PyStr :=
  if part = pystr "." then acc
  else if part ≠ pystr ".." then acc ++ [part]
  else if acc ≠ [] then acc.dropLast
  else acc

/-- Dot-segment resolution loop of `flatten_path`. -/
def flattenParts (parts : List PyStr) : List PyStr :=
  parts.foldl flattenStep []

/-- Loop of `collapseSlashes`: drop a slash that follows a kept slash. -/
def collapseGo (prev : Char) : PyStr → PyStr
  | [] => []
  | c :: rest =>
    if prev = '/' ∧ c = '/' then collapseGo prev rest
    else c :: collapseGo c rest

/-- Replace every run of slashes with a single slash (`re.sub` of `/+`). -/
def collapseSlashes : PyStr → PyStr
  | [] => []
  | c :: rest => c :: collapseGo c rest

/-- `flatten_path(path, flatten_slashes)`. -/
def flattenPath (path : PyStr) (flattenSlashes : Bool) : PyStr :=
  let newPath := pyJoin (flattenParts (pySplit path '/')) '/'
  if flattenSlashes then collapseSlashes newPath else newPath

/-- `normalize_path` with UTF-8 encoding: flatten with slash collapsing,
percent-encode with the default set, uppercase the escapes. -/
def normalizePath (path : PyStr) : PyStr :=
  uppercasePercentEncoding (percentEncode (flattenPath path true) DEFAULT_ENCODE_SET)

/-- `normalize_query` with UTF-8 encoding. -/
def normalizeQuery (text : PyStr) : PyStr :=
  uppercasePercentEncoding (percentEncodePlus text QUERY_ENCODE_SET)

/-! ### Python `int(text, base)`

Model of CPython's `int` constructor on strings for the bases used here
(10, 8, 16): surrounding whitespace, an optional sign, an optional base
marker (`0x`/`0o`, matching the base), digits with single underscores
between digits (or right after the base marker).  Non-ASCII digits are
not modelled; none occur in the claims. -/

/-- Value of a digit character in the given base. -/
def digitValB (base : Nat) (c : Char) : Option Nat :=
  let v :=
    if 48 ≤ cp c ∧ cp c ≤ 57 then some (cp c - 48)
    else if 97 ≤ cp c ∧ cp c ≤ 122 then some (cp c - 87)
    else if 65 ≤ cp c ∧ cp c ≤ 90 then some (cp c - 55)
    else none
  match v with
  | some d => if d < base then some d else none
  | none => none

/-- No two adjacent underscores. -/
def noDoubleUnderscore : PyStr → Bool
  | c :: d :: t => ¬ (c = '_' ∧ d = '_') && noDoubleUnderscore (d :: t)
  | _ => true

/-- Digit-group well-formedness for `int`: nonempty, underscores only
between digits, all other characters digits of the base. -/
def pyIntDigitsOk (s : PyStr) (base : Nat) : Bool :=
  s ≠ [] ∧ s.head? ≠ some '_' ∧ s.getLast? ≠ some '_' ∧
  noDoubleUnderscore s ∧ s.all (fun c => c = '_' ∨ (digitValB base c).isSome)

/-- Magnitude of a digit group. -/
def pyIntMag (s : PyStr) (base : Nat) : Option Nat :=
  if pyIntDigitsOk s base then
    some ((s.filter (· ≠ '_')).foldl (fun a c => a * base + (digitValB base c).getD 0) 0)
  else none

/-- Strip the base marker when it matches the base, allowing one
underscore right after it. -/
def pyIntStripMarker (s : PyStr) (base : Nat) : PyStr :=
  let marked :=
    (base = 16 ∧ ((pystr "0x").isPrefixOf s ∨ (pystr "0X").isPrefixOf s)) ∨
    (base = 8 ∧ ((pystr "0o").isPrefixOf s ∨ (pystr "0O").isPrefixOf s)) ∨
    (base = 2 ∧ ((pystr "0b").isPrefixOf s ∨ (pystr "0B").isPrefixOf s))
  if marked then
    match s.drop 2 with
    | '_' :: r => r
    | r => r
  else s

/-- Unsigned part of `int(text, base)` after sign removal. -/
def pyIntAfterSign (s : PyStr) (base : Nat) : Option Nat :=
  pyIntMag (pyIntStripMarker s base) base

/-- `int(text, base)` on strings. -/
def pyInt (s : PyStr) (base : Nat) : Option Int :=
  match pyStrip s with
  | [] => none
  | c :: r =>
    if c = '+' then (pyIntAfterSign r base).map Int.ofNat
    else if c = '-' then (pyIntAfterSign r base).map (fun n => -(n : Int))
    else (pyIntAfterSign (c :: r) base).map Int.ofNat

/-- All-or-nothing map over `Option` (the raise-on-first-failure loops). -/
def mapOpt (f : α → Option β) : List α → Option (List β)
  | [] => some []
  | x :: t =>
    match f x, mapOpt f t with
    | some y, some ys => some (y :: ys)
    | _, _ => none

/-! ### IPv4 (`ipaddress.IPv4Address` and `parse.py`'s integer notations) -/

/-- `IPv4Address._parse_octet`: 1–3 ASCII decimal digits, no leading
zero (except `0` itself), value at most 255. -/
def ipv4ParseOctet (s : PyStr) : Option Nat :=
  if s = [] then none
  else if ¬ s.all isDecDigit then none
  else if s.length > 3 then none
  else if s ≠ pystr "0" ∧ s.head? = some '0' then none
  else if s.foldl (fun a c => a * 10 + (cp c - 48)) 0 > 255 then none
  else some (s.foldl (fun a c => a * 10 + (cp c - 48)) 0)

/-- `IPv4Address(str)`: strict dotted quad. -/
def ipv4Strict (s : PyStr) : Option Nat :=
  if '/' ∈ s then none
  else if (pySplit s '.').length = 4 then
    match mapOpt ipv4ParseOctet (pySplit s '.') with
    | some [a, b, c, d] => some (((a * 256 + b) * 256 + c) * 256 + d)
    | _ => none
  else none

/-- `IPv4Address.compressed`: dotted decimal text. -/
def ipv4Compressed (v : Nat) : PyStr :=
  pyJoin [natToDec (v / 16777216 % 256), natToDec (v / 65536 % 256),
          natToDec (v / 256 % 256), natToDec (v % 256)] '.'

/-- `parse_ipv4_int`: pick the base from the `0x`/`0` head and call
`int`. -/
def parseIpv4Int (text : PyStr) : Option Int :=
  if (pystr "0x").isPrefixOf text then pyInt text 16
  else if (pystr "0").isPrefixOf text then pyInt text 8
  else pyInt text 10

/-- `parse_ipv4_address`: strict dotted quad first; otherwise dotted
forms with exactly 4 integer parts (each range-checked to 0–255) or a
single collapsed integer (range-checked to below 2^32).  Any other part
count raises; all raises surface as `none`. -/
def parseIpv4Address (address : PyStr) : Option Nat :=
  match ipv4Strict address with
  | some v => some v
  | none =>
    if (pySplit address '.').length = 4 then
      (mapOpt
        (fun p => (parseIpv4Int p).bind fun v =>
          if 0 ≤ v ∧ v ≤ 255 then some v.toNat else none)
        (pySplit address '.')).map
        (List.foldl (fun a v => a * 256 + v) 0)
    else if (pySplit address '.').length = 1 then
      (parseIpv4Int address).bind fun v =>
        if 0 ≤ v ∧ v < 4294967296 then some v.toNat else none
    else none

/-! ### IPv6 (`ipaddress.IPv6Address`) -/

/-- `IPv6Address._parse_hextet`: 1–4 hex digits. -/
def parseHextet (s : PyStr) : Option Nat :=
  if s.all isHexDigit ∧ s.length ≤ 4 ∧ s ≠ [] then
    some (s.foldl (fun a c => a * 16 + hexVal c) 0)
  else none

/-- `IPv6Address._ip_int_from_string`: split on `:`, expand an embedded
dotted-quad suffix, locate at most one interior `::`, range- and
count-check the remaining hextets. -/
def ipv6IntFromString (s : PyStr) : Option Nat := do
  if s = [] then none
  else
  let parts0 := pySplit s ':'
  if parts0.length < 3 then none
  else do
  let parts ←
    match parts0.getLast? with
    | some lastp =>
      if '.' ∈ lastp then do
        let v ← ipv4Strict lastp
        pure (parts0.dropLast ++ [natToHexLower (v / 65536), natToHexLower (v % 65536)])
      else pure parts0
    | none => none
  if parts.length > 9 then none
  else do
  let emptyIdx := (List.range parts.length).filter fun i =>
    0 < i ∧ i + 1 < parts.length ∧ parts.getD i [] = ([] : PyStr)
  let headEmpty := parts.head? = some []
  let lastEmpty := parts.getLast? = some []
  match emptyIdx with
  | _ :: _ :: _ => none
  | [skip] => do
    let hi ←
      if headEmpty then (if skip - 1 ≠ 0 then none else some 0)
      else some skip
    let lo0 := parts.length - skip - 1
    let lo ←
      if lastEmpty then (if lo0 - 1 ≠ 0 then none else some 0)
      else some lo0
    if hi + lo > 7 then none
    else do
    let hvals ← mapOpt parseHextet (parts.take hi)
    let lvals ← mapOpt parseHextet (parts.drop (parts.length - lo))
    let high := hvals.foldl (fun a v => a * 65536 + v) 0
    let low := lvals.foldl (fun a v => a * 65536 + v) 0
    pure (high * 65536 ^ (8 - hi) + low)
  | [] =>
    if parts.length ≠ 8 then none
    else if headEmpty then none
    else if lastEmpty then none
    else do
    let vals ← mapOpt parseHextet parts
    pure (vals.foldl (fun a v => a * 65536 + v) 0)

/-- `IPv6Address(str)`: reject `/`, split off a nonempty scope after
`%`, parse the address. -/
def ipv6AddressParse (s : PyStr) : Option (Nat × Option PyStr) := do
  if '/' ∈ s then none
  else
  let (addr, found, scope) := pyPartition s '%'
  if found ∧ (scope = [] ∨ '%' ∈ scope) then none
  else do
  let v ← ipv6IntFromString addr
  pure (v, if found then some scope else none)

/-- The 8 hextet values of a 128-bit address. -/
def ipv6Hextets (n : Nat) : List Nat :=
  (List.range 8).map fun i => n / 65536 ^ (7 - i) % 65536

/-- Leftmost longest run of zero hextets (start, length); length 0 means
no zero hextet. -/
def bestZeroRunGo : List Nat → Nat → Nat → Nat → Nat → Nat → Nat × Nat
  | [], _, _, _, bs, bl => (bs, bl)
  | v :: t, i, cs, cl, bs, bl =>
    if v = 0 then
      let cs' := if cl = 0 then i else cs
      let cl' := cl + 1
      if cl' > bl then bestZeroRunGo t (i + 1) cs' cl' cs' cl'
      else bestZeroRunGo t (i + 1) cs' cl' bs bl
    else bestZeroRunGo t (i + 1) cs 0 bs bl

/-- See `bestZeroRunGo`. -/
def bestZeroRun (hx : List Nat) : Nat × Nat := bestZeroRunGo hx 0 0 0 0 0

/-- `_compress_hextets`: splice the best zero run (length at least 2)
into an empty slot, padding the ends so the join shows `::`. -/
def ipv6CompressHextets (hx0 : List PyStr) (bestStart bestLen : Nat) : List PyStr :=
  if bestLen > 1 then
    let bestEnd := bestStart + bestLen
    let hx1 := if bestEnd = hx0.length then hx0 ++ [[]] else hx0
    let hx2 := hx1.take bestStart ++ [[]] ++ hx1.drop bestEnd
    if bestStart = 0 then [] :: hx2 else hx2
  else hx0

/-- `IPv6Address.compressed` (RFC 5952 form, plus `%scope` if any). -/
def ipv6Compressed (n : Nat) (scope : Option PyStr) : PyStr :=
  let run := bestZeroRun (ipv6Hextets n)
  let hx := ipv6CompressHextets ((ipv6Hextets n).map natToHexLower) run.1 run.2
  pyJoin hx ':' ++ (match scope with | some sc => '%' :: sc | none => [])

/-! ### Punycode encoding (`encodings.punycode.punycode_encode`)

A direct model of CPython's RFC 3492 encoder; used by the idna model for
non-ASCII labels. -/

/-- Occurrence indices of `insertion_unsort`'s inner loop: for each
occurrence of `ch`, the count (minus one) of positions up to it holding a
code point at most `ch`. -/
def pcOccIdx : List Nat → Nat → Int → List Int
  | [], _, _ => []
  | x :: t, ch, idx =>
    if x = ch then (idx + 1) :: pcOccIdx t ch (idx + 1)
    else if x < ch then pcOccIdx t ch (idx + 1)
    else pcOccIdx t ch idx

/-- Per-run deltas after the first: gaps between consecutive indices. -/
def pcGaps : Int → List Int → List Int
  | _, [] => []
  | prev, o :: os => (o - prev - 1) :: pcGaps o os

/-- `insertion_unsort`: the delta sequence for the sorted extended code
points. -/
def insertionUnsort (codes : List Nat) : List Nat → Nat → Int → List Int
  | [], _, _ => []
  | ch :: rest, oldchar, oldindex =>
    let curlen : Int := ((codes.filter fun x => x < ch).length : Int)
    match pcOccIdx codes ch (-1) with
    | [] => insertionUnsort codes rest ch oldindex
    | o0 :: os =>
      ((curlen + 1) * ((ch : Int) - (oldchar : Int)) + o0 - oldindex - 1)
        :: pcGaps o0 os ++ insertionUnsort codes rest ch ((o0 :: os).getLast (by simp))

/-- Punycode digit characters. -/
def pcDigit (n : Nat) : Char := (pystr "abcdefghijklmnopqrstuvwxyz0123456789").getD n 'a'

/-- Threshold function `T(j, bias)` with tmin 1, tmax 26, base 36. -/
def pcT (j bias : Nat) : Nat :=
  let res := 36 * (j + 1) - bias
  if res < 1 then 1 else if res > 26 then 26 else res

/-- `generate_generalized_integer`. -/
def pcGGI (bias : Nat) (j : Nat) (n : Nat) : PyStr :=
  let t := pcT j bias
  if _h : n < t then [pcDigit n]
  else pcDigit (t + (n - t) % (36 - t)) :: pcGGI bias (j + 1) ((n - t) / (36 - t))
  termination_by n
  decreasing_by
    have ht : 1 ≤ pcT j bias := by
      simp only [pcT]
      split <;> [omega; (split <;> omega)]
    calc (n - pcT j bias) / (36 - pcT j bias) ≤ n - pcT j bias := Nat.div_le_self _ _
    _ < n := Nat.sub_lt (by omega) (by omega)

/-- Inner loop of `adapt`: divide by 35 counting 36 per division. -/
def pcAdaptLoop (delta divisions : Nat) : Nat × Nat :=
  if _h : delta > 455 then pcAdaptLoop (delta / 35) (divisions + 36)
  else (delta, divisions)
  termination_by delta
  decreasing_by exact Nat.div_lt_self (by omega) (by omega)

/-- Bias adaptation `adapt(delta, first, numchars)`. -/
def pcAdapt (delta : Nat) (first : Bool) (numchars : Nat) : Nat :=
  let d := if first then delta / 700 else delta / 2
  let d := d + d / numchars
  let r := pcAdaptLoop d 0
  r.2 + 36 * r.1 / (r.1 + 38)

/-- `generate_integers`: encode each delta, adapting the bias. -/
def pcGenInts (baselen : Nat) : List Nat → Nat → Nat → PyStr
  | [], _, _ => []
  | d :: ds, points, bias =>
    pcGGI bias 0 d ++
      pcGenInts baselen ds (points + 1) (pcAdapt d (points = 0) (baselen + points + 1))

/-- Insertion of a value into a sorted list (used to sort the extended
code points). -/
def insertSorted (x : Nat) : List Nat → List Nat
  | [] => [x]
  | y :: t => if x ≤ y then x :: y :: t else y :: insertSorted x t

/-- Sort by repeated insertion. -/
def sortNat (l : List Nat) : List Nat := l.foldr insertSorted []

/-- Drop adjacent duplicates of a sorted list (models the `set` in
`segregate`). -/
def dedupSorted : List Nat → List Nat
  | [] => []
  | [x] => [x]
  | x :: y :: t => if x = y then dedupSorted (y :: t) else x :: dedupSorted (y :: t)

/-- `punycode_encode`. -/
def punycodeEncode (text : PyStr) : PyStr :=
  let codes := text.map cp
  let base := codes.filter fun x => x < 128
  let extended := dedupSorted (sortNat (codes.filter fun x => 128 ≤ x))
  let deltas := (insertionUnsort codes extended 128 (-1)).map Int.toNat
  let ext := pcGenInts base.length deltas 0 72
  if base ≠ [] then base.map Char.ofNat ++ '-' :: ext else ext

/-! ### IDNA encoding (`encodings.idna` `Codec.encode` and `ToASCII`)

The per-label `nameprep` step (table-driven Unicode mapping, NFKC
normalization, prohibition and bidi checks) is modelled as the identity:
it is the identity on every ASCII label, and no claim exercises a
non-ASCII hostname.  Everything else follows the codec line by line. -/

/-- Whether `s` starts with the ACE marker `xn--`. -/
def startsWithAce (s : PyStr) : Bool := (pystr "xn--").isPrefixOf s

/-- `ToASCII(label)` with `nameprep` modelled as the identity. -/
def toASCIILabel (label : PyStr) : Option PyStr :=
  if label.all isAsciiCp then
    if 0 < label.length ∧ label.length < 64 then some label else none
  else if startsWithAce label then none
  else
    let p := pystr "xn--" ++ punycodeEncode label
    if 0 < p.length ∧ p.length < 64 then some p else none

/-- Split on a character class (keeps empty parts, like `re.split`). -/
def pySplitP : PyStr → (Char → Bool) → List PyStr
  | [], _ => [[]]
  | x :: xs, p =>
    if p x then [] :: pySplitP xs p
    else
      match pySplitP xs p with
      | h :: t => (x :: h) :: t
      | [] => [[x]]

/-- The IDNA label separators (U+002E and the three Unicode dots). -/
def isIdnaDot (c : Char) : Bool := cp c ∈ [0x2E, 0x3002, 0xFF0E, 0xFF61]

/-- `str.encode('idna')`: ASCII fast path with label length checks, or
per-label `ToASCII` with the trailing-dot special case. -/
def idnaEncode (input : PyStr) : Option PyStr :=
  if input = [] then some []
  else if input.all isAsciiCp then
    let labels := pySplit input '.'
    if (labels.dropLast.all fun l => 0 < l.length ∧ l.length < 64) ∧
       (labels.getLastD []).length < 64 then
      some input
    else none
  else
    let labels0 := pySplitP input isIdnaDot
    let trailing := labels0.getLast? = some []
    let labels := if trailing then labels0.dropLast else labels0
    (mapOpt toASCIILabel labels).map fun ls =>
      pyJoin ls '.' ++ (if trailing then ['.'] else [])

/-- `normalize_hostname`: IDNA-encode, ASCII-decode, lowercase; unless
the input was already in that form, check the result round-trips through
the IDNA codec. -/
def normalizeHostname (hostname : PyStr) : Option PyStr := do
  let e ← idnaEncode hostname
  let nh := pyLower e
  if hostname = nh then pure nh
  else do
    let _ ← idnaEncode nh
    pure nh

/-! ### The URL model (`parse.py`, class `URLInfo`)

`URLInfo.parse` fixes `encoding='utf-8'`, `query_encoding='utf-8'` and
`errors='strict'` (its defaults, and the setting the claims fix), so the
record does not carry them.  Every `raise ValueError` site is a
constructor of `ParseError`. -/

/-- A parsed IP literal (`URLInfo.address`). -/
inductive IpAddr where
  | v4 (val : Nat)
  | v6 (val : Nat) (scope : Option PyStr)
deriving DecidableEq, Repr

/-- Raise sites of `URLInfo.parse` and its helpers. -/
inductive ParseError where
  /-- URL contains C0 control codes. -/
  | controlChars
  /-- URL missing scheme. -/
  | missingScheme
  /-- URI missing colon (no separator and no default scheme). -/
  | missingColon
  /-- `int(port)` failed. -/
  | badPortInt
  /-- Port number outside 0–65535. -/
  | portOutOfRange
  /-- Empty hostname. -/
  | emptyHostname
  /-- Invalid IPv6 address (bracket or address syntax). -/
  | invalidIPv6
  /-- Normalized hostname contains forbidden characters. -/
  | forbiddenHostChars
  /-- IDNA conversion or round-trip failure (`UnicodeError`). -/
  | idnaFail
  /-- Strict percent-decoding of userinfo failed (`UnicodeDecodeError`). -/
  | decodeFail
deriving DecidableEq, Repr

/-- Error families of the specification (its section 7). -/
inductive ErrKind where
  | invalidURL
  | invalidHost
  | invalidPort
  | encodingError
deriving DecidableEq, Repr

/-- Classify a raise site into the specification's error families. -/
def errKind : ParseError → ErrKind
  | .controlChars => .invalidURL
  | .missingScheme => .invalidURL
  | .missingColon => .invalidURL
  | .badPortInt => .invalidPort
  | .portOutOfRange => .invalidPort
  | .emptyHostname => .invalidHost
  | .invalidIPv6 => .invalidHost
  | .forbiddenHostChars => .invalidHost
  | .idnaFail => .invalidHost
  | .decodeFail => .encodingError

/-- Result of a parse stage. -/
inductive PRes (α : Type) where
  | ok (val : α)
  | err (e : ParseError)
deriving DecidableEq, Repr

instance : Monad PRes where
  pure := PRes.ok
  bind := fun r f => match r with | .ok v => f v | .err e => .err e

/-- The structured URL record.  `scheme` is an `Option` because the
`localhost` heuristic can store a `None` default scheme. -/
structure URLInfo where
  scheme : Option PyStr
  hostname : Option PyStr := none
  port : Option Int := none
  username : Option PyStr := none
  password : Option PyStr := none
  path : Option PyStr := none
  query : Option PyStr := none
  fragment : Option PyStr := none
  address : Option IpAddr := none
deriving DecidableEq, Repr

/-- The relative-scheme default port table. -/
def RELATIVE_SCHEME_DEFAULT_PORTS : List (PyStr × Int) :=
  [(pystr "ftp", 21), (pystr "gopher", 70), (pystr "http", 80),
   (pystr "https", 443), (pystr "ws", 80), (pystr "wss", 443)]

/-- Dictionary lookup in the default-port table (`.get`). -/
def defaultPortOf (scheme : Option PyStr) : Option Int :=
  match scheme with
  | none => none
  | some s => (RELATIVE_SCHEME_DEFAULT_PORTS.find? fun p => p.1 = s).map (·.2)

/-- `scheme in RELATIVE_SCHEME_DEFAULT_PORTS`. -/
def isRelativeScheme (scheme : Option PyStr) : Bool :=
  (defaultPortOf scheme).isSome

/-- Python truthiness of an optional string (`None` and `''` falsy). -/
def strTruthy : Option PyStr → Bool
  | some (_ :: _) => true
  | _ => false

/-- Python truthiness of an optional integer (`None` and `0` falsy). -/
def intTruthy : Option Int → Bool
  | some p => p ≠ 0
  | none => false

/-- `URLInfo.parse_userinfo`: split on the first `:`. -/
def parseUserinfo (userinfo : PyStr) : PyStr × PyStr :=
  let r := pyPartition userinfo ':'
  (r.1, r.2.2)

/-- `URLInfo.parse_authority`: split on the first `@`; without one the
whole string is the host. -/
def parseAuthority (authority : PyStr) : PyStr × PyStr :=
  let r := pyPartition authority '@'
  if ¬ r.2.1 then ([], r.1) else (r.1, r.2.2)

/-- `URLInfo.parse_ipv6_hostname`: require brackets, parse the inside as
an IPv6 address, return its compressed text and the address. -/
def parseIpv6Hostname (hostname : PyStr) : PRes (PyStr × Option IpAddr) :=
  if ¬ ((pystr "[").isPrefixOf hostname ∧ hostname.getLast? = some ']') then
    .err .invalidIPv6
  else
    match ipv6AddressParse (hostname.drop 1).dropLast with
    | some (v, sc) => .ok (ipv6Compressed v sc, some (.v6 v sc))
    | none => .err .invalidIPv6

/-- `URLInfo.parse_hostname`: bracketed IPv6 first, reject empty, try
the IPv4 notations (errors fall through), else IDNA-normalize and check
forbidden characters. -/
def parseHostname (hostname : PyStr) : PRes (PyStr × Option IpAddr) :=
  if (pystr "[").isPrefixOf hostname then parseIpv6Hostname hostname
  else if hostname = [] then .err .emptyHostname
  else
    match parseIpv4Address hostname with
    | some v => .ok (ipv4Compressed v, some (.v4 v))
    | none =>
      match normalizeHostname hostname with
      | none => .err .idnaFail
      | some nh =>
        if FORBIDDEN_HOSTNAME_CHARS.any (fun c => c ∈ nh) then
          .err .forbiddenHostChars
        else .ok (nh, none)

/-- `URLInfo.parse_host`: bracketed hosts skip the port split; otherwise
split on the last `:`, convert and range-check the port before parsing
the hostname. -/
def parseHost (host : PyStr) : PRes ((PyStr × Option IpAddr) × Option Int) :=
  if host.getLast? = some ']' then do
    let hn ← parseHostname host
    pure (hn, none)
  else
    let r := pyRPartition host ':'
    if r.2.1 then
      match pyInt r.2.2 10 with
      | none => .err .badPortInt
      | some p =>
        if p < 0 ∨ p > 65535 then .err .portOutOfRange
        else do
          let hn ← parseHostname r.1
          pure (hn, some p)
    else do
      let hn ← parseHostname r.2.2
      pure (hn, none)

/-- The `userinfo` setter: split into username/password, strict
percent-decode both. -/
def userinfoSet (r : URLInfo) (newUserinfo : PyStr) : PRes URLInfo :=
  let p := parseUserinfo newUserinfo
  match percentDecode p.1 true, percentDecode p.2 true with
  | some u, some pw => .ok { r with username := some u, password := some pw }
  | _, _ => .err .decodeFail

/-- The `host` setter: parse, then default the port from the scheme
table when falsy. -/
def hostSet (r : URLInfo) (newHost : PyStr) : PRes URLInfo := do
  let hp ← parseHost newHost
  let r := { r with hostname := some hp.1.1, address := hp.1.2, port := hp.2 }
  if ¬ intTruthy r.port then pure { r with port := defaultPortOf r.scheme }
  else pure r

/-- The `authority` setter: split, then run the `userinfo` and `host`
setters. -/
def authoritySet (r : URLInfo) (newAuthority : PyStr) : PRes URLInfo := do
  let a := parseAuthority newAuthority
  let r ← userinfoSet r a.1
  hostSet r a.2

/-- `URLInfo.parse_resource`: path up to the first `?` or `#`; a `?`
starts the query, which a `#` ends. -/
def parseResource (resource : PyStr) : PyStr × PyStr × PyStr :=
  let path := resource.takeWhile fun c => c ≠ '#' ∧ c ≠ '?'
  match resource.drop path.length with
  | '?' :: remain =>
    let q := pyPartition remain '#'
    (path, q.1, q.2.2)
  | '#' :: remain => (path, [], remain)
  | _ => (path, [], [])

/-- The `resource` setter: split and normalize path and query (the
fragment is stored as-is). -/
def resourceSet (r : URLInfo) (newResource : PyStr) : URLInfo :=
  let p := parseResource newResource
  { r with path := some (normalizePath p.1),
           query := some (normalizeQuery p.2.1),
           fragment := some p.2.2 }

/-- `URLInfo.parse`.  `defaultScheme` is `some "http"` by default in the
source; `none` models passing `None`. -/
def parse (url0 : PyStr) (defaultScheme : Option PyStr) : PRes URLInfo :=
  let url := pyStrip url0
  if url.any (fun c => cp c ≤ 0x1F) then .err .controlChars
  else
    let pt := pyPartition url ':'
    if pt.1 = [] then .err .missingScheme
    else
      let scheme1 := pyLower pt.1
      let dsTruthy := strTruthy defaultScheme
      if ¬ pt.2.1 ∧ ¬ dsTruthy then .err .missingColon
      else
        let (schemeA, remainingA) :=
          if ¬ pt.2.1 then (defaultScheme.getD [], url) else (scheme1, pt.2.2)
        let (schemeB, remainingB) :=
          if (dsTruthy ∧ '.' ∈ schemeA) ∨ schemeA = pystr "localhost" then
            (defaultScheme, schemeA ++ ':' :: remainingA)
          else (some schemeA, remainingA)
        let info : URLInfo := { scheme := schemeB }
        if ¬ isRelativeScheme schemeB then
          .ok { info with path := some remainingB }
        else
          let rem := remainingB.dropWhile (· = '/')
          let authority := rem.takeWhile fun c => c ≠ '/' ∧ c ≠ '?' ∧ c ≠ '#'
          let resource := rem.drop authority.length
          match authoritySet info authority with
          | .err e => .err e
          | .ok r => .ok (resourceSet r resource)

/-! ### Serialization (the read properties of `URLInfo`) -/

/-- The `userinfo` property: encoded username, `:` and encoded password
when either is truthy. -/
def userinfoProp (r : URLInfo) : PyStr :=
  if strTruthy r.username ∨ strTruthy r.password then
    percentEncode (r.username.getD []) USERNAME_ENCODE_SET ++
      (if strTruthy r.password then [':'] else []) ++
      percentEncode (r.password.getD []) PASSWORD_ENCODE_SET
  else []

/-- The `is_ipv6` property given a truthy hostname. -/
def isIpv6Disp (r : URLInfo) (h : PyStr) : Bool :=
  (match r.address with | some (.v6 _ _) => true | _ => false) || ':' ∈ h

/-- The display form of a truthy hostname: brackets around IPv6. -/
def hostDisplay (r : URLInfo) (h : PyStr) : PyStr :=
  if isIpv6Disp r h then '[' :: h ++ [']'] else h

/-- The `host` property.  `none` models the `KeyError` the source hits
when the port is truthy and the scheme has no default-port entry. -/
def hostProp (r : URLInfo) : Option PyStr :=
  match r.hostname with
  | none => some []
  | some [] => some []
  | some h =>
    let hn := hostDisplay r h
    match r.port with
    | none => some hn
    | some p =>
      if p = 0 then some hn
      else
        match defaultPortOf r.scheme with
        | none => none
        | some dp => if dp ≠ p then some (hn ++ ':' :: intToDec p) else some hn

/-- The `authority` property. -/
def authorityProp (r : URLInfo) : Option PyStr :=
  (hostProp r).map fun h =>
    let u := userinfoProp r
    if u ≠ [] then u ++ '@' :: h else h

/-- Python `str` of an optional scheme (`None` formats as `None`). -/
def schemeText : Option PyStr → PyStr
  | some s => s
  | none => pystr "None"

/-- The `origin` property. -/
def originProp (r : URLInfo) : Option PyStr := do
  let h ← hostProp r
  let a ← authorityProp r
  if h ≠ [] then pure (schemeText r.scheme ++ pystr "://" ++ a)
  else pure (schemeText r.scheme ++ ':' :: a)

/-- The `resource` property: path (or `/`), slash-prefixed for relative
schemes, plus re-encoded query and raw fragment. -/
def resourceProp (r : URLInfo) : PyStr :=
  let path := match r.path with | some (c :: t) => c :: t | _ => pystr "/"
  let path :=
    if isRelativeScheme r.scheme ∧ path.head? ≠ some '/' then '/' :: path
    else path
  let withQ :=
    if strTruthy r.query then
      path ++ '?' :: percentEncodePlus (r.query.getD []) QUERY_ENCODE_SET
    else path
  if strTruthy r.fragment then withQ ++ '#' :: r.fragment.getD []
  else withQ

/-- The `url` property: origin then resource. -/
def urlProp (r : URLInfo) : Option PyStr := do
  let o ← originProp r
  pure (o ++ resourceProp r)

/-- Parse and render, the composition the round-trip law is about. -/
def parseUrl (s : PyStr) : Option PyStr :=
  match parse s (some (pystr "http")) with
  | .ok r => urlProp r
  | .err _ => none

/-- `schemes_similar`: exact equality first, otherwise both lowercased
schemes must belong to the HTTP family. -/
def schemesSimilar (scheme1 scheme2 : PyStr) : Bool :=
  if scheme1 = scheme2 then true
  else
    let s1 := pyLower scheme1
    let s2 := pyLower scheme2
    if (s1 = pystr "http" ∨ s1 = pystr "https") ∧
       (s2 = pystr "http" ∨ s2 = pystr "https") then true
    else false

/-! ## General lemmas about the embedded primitives -/

/-- Unfolding a successful monadic bind of a parse stage. -/
theorem PRes.bind_ok {α β : Type} (a : PRes α) (f : α → PRes β) (v : β)
    (h : (a >>= f) = .ok v) : ∃ w, a = .ok w ∧ f w = .ok v := by
  cases a with
  | ok w => exact ⟨w, rfl, h⟩
  | err e => simp [Bind.bind, Monad.toBind] at h

/-- `pyPartition` in closed form: the prefix before the first occurrence,
whether the separator occurs, and the remainder after it. -/
theorem pyPartition_eq (s : PyStr) (c : Char) :
    pyPartition s c =
      (s.takeWhile (· ≠ c), decide (c ∈ s),
       s.drop ((s.takeWhile (· ≠ c)).length + 1)) := by
  induction s with
  | nil => simp [pyPartition]
  | cons x xs ih =>
    by_cases hx : x = c
    · subst hx
      simp [pyPartition, List.takeWhile]
    · simp [pyPartition, ih, List.takeWhile, hx, Ne.symm hx]

/-- `mapOpt` success gives pointwise success. -/
theorem mapOpt_eq_some {α β : Type} (f : α → Option β) :
    ∀ (l : List α) (l' : List β), mapOpt f l = some l' →
      l'.length = l.length ∧ ∀ y ∈ l', ∃ x ∈ l, f x = some y := by
  intro l
  induction l with
  | nil =>
    intro l' h
    simp [mapOpt] at h
    subst h
    simp
  | cons x t ih =>
    intro l' h
    simp only [mapOpt] at h
    cases hfx : f x with
    | none => rw [hfx] at h; simp at h
    | some y =>
      rw [hfx] at h
      cases hmt : mapOpt f t with
      | none => rw [hmt] at h; simp at h
      | some ys =>
        rw [hmt] at h
        simp only [Option.some.injEq] at h
        obtain ⟨hl, hr⟩ := ih ys hmt
        subst h
        refine ⟨by simp [hl], ?_⟩
        intro z hz
        rcases List.mem_cons.mp hz with hz | hz
        · exact ⟨x, by simp, hz ▸ hfx⟩
        · obtain ⟨w, hw1, hw2⟩ := hr z hz
          exact ⟨w, by simp [hw1], hw2⟩

/-- `mapOpt` succeeds when `f` succeeds pointwise. -/
theorem mapOpt_isSome {α β : Type} (f : α → Option β) :
    ∀ (l : List α), (∀ x ∈ l, (f x).isSome) → (mapOpt f l).isSome := by
  intro l
  induction l with
  | nil => intro _; simp [mapOpt]
  | cons x t ih =>
    intro h
    have hx := h x (by simp)
    have ht := ih fun y hy => h y (by simp [hy])
    simp only [mapOpt]
    cases hfx : f x with
    | none => rw [hfx] at hx; simp at hx
    | some y =>
      cases hmt : mapOpt f t with
      | none => rw [hmt] at ht; simp at ht
      | some ys => simp

/-- A join of two or more parts is never empty. -/
theorem pyJoin_ne_nil_of_two (x y : PyStr) (t : List PyStr) (c : Char) :
    pyJoin (x :: y :: t) c ≠ [] := by
  simp only [pyJoin]
  cases x <;> simp

/-- `natDigits` is never empty. -/
theorem natDigits_ne_nil (base n : Nat) : natDigits base n ≠ [] := by
  unfold natDigits natDigitsAux
  split <;> simp

/-- `natToDec` is never empty. -/
theorem natToDec_ne_nil (n : Nat) : natToDec n ≠ [] := by
  unfold natToDec
  simpa using natDigits_ne_nil 10 n

/-! ## Claim C9: scheme similarity -/

/-- C9 counterexample: `schemes_similar('FTP', 'ftp')` is false although
the two schemes are equal case-insensitively, refuting the claim that
case-insensitive equality alone makes `schemes_similar` return true. -/
theorem claim9_counterexample :
    schemesSimilar (pystr "FTP") (pystr "ftp") = false ∧
    pyLower (pystr "FTP") = pyLower (pystr "ftp") := by decide

/-- C9 (amended): `schemes_similar(a, b)` returns true exactly when `a`
and `b` are equal as written (case-sensitively), or both lowercase to a
member of the HTTP family (http or https); case-insensitive equality
outside that family does not count. -/
theorem claim9_schemes_similar_amended (a b : PyStr) :
    schemesSimilar a b = true ↔
      a = b ∨ ((pyLower a = pystr "http" ∨ pyLower a = pystr "https") ∧
               (pyLower b = pystr "http" ∨ pyLower b = pystr "https")) := by
  unfold schemesSimilar
  split_ifs <;> simp_all

/-! ## Claim C4: parse error kinds -/

/-- C4 counterexample: parsing `'#'` fails with the empty-hostname error
raised by hostname parsing, which belongs to the `InvalidHost` family,
not to `InvalidURL` as the claim states. -/
theorem claim4_counterexample :
    parse (pystr "#") (some (pystr "http")) = .err .emptyHostname ∧
    errKind .emptyHostname ≠ .invalidURL := by decide

/-- C4 (amended): `'http://[not-valid'` fails with `InvalidHost` (bad
IPv6 brackets) and `''` fails with `InvalidURL` (missing scheme), as
claimed; but `'#'` fails with the empty-hostname `InvalidHost`-family
error, not `InvalidURL`. -/
theorem claim4_errors_amended :
    parse (pystr "http://[not-valid") (some (pystr "http")) = .err .invalidIPv6 ∧
    errKind .invalidIPv6 = .invalidHost ∧
    parse (pystr "") (some (pystr "http")) = .err .missingScheme ∧
    errKind .missingScheme = .invalidURL ∧
    parse (pystr "#") (some (pystr "http")) = .err .emptyHostname ∧
    errKind .emptyHostname = .invalidHost := by decide

/-! ## Claim C1: idempotent canonicalization -/

/-- Decomposition of a string at the first occurrence of a character. -/
theorem mem_split_first (a : PyStr) (c : Char) (h : c ∈ a) :
    a = a.takeWhile (· ≠ c) ++ c :: a.drop ((a.takeWhile (· ≠ c)).length + 1) := by
  induction a with
  | nil => cases h
  | cons x xs ih =>
    by_cases hx : x = c
    · subst hx
      simp [List.takeWhile]
    · have hc : c ∈ xs := by
        rcases List.mem_cons.mp h with h1 | h1
        · exact absurd h1.symm hx
        · exact h1
      have hb : decide (x ≠ c) = true := by simp [hx]
      simp only [List.takeWhile, hb, List.length_cons, List.drop_succ_cons,
        List.cons_append]
      exact congrArg (x :: ·) (ih hc)

/-! ## Claim C2: authority splitting -/

/-- C2 counterexample: on `'a@b@c'` the parser splits at the first `@`
(userinfo `'a'`, host `'b@c'`), not at the last `@` as the claim states
(which would give userinfo `'a@b'`, host `'c'`). -/
theorem claim2_counterexample :
    parseAuthority (pystr "a@b@c") = (pystr "a", pystr "b@c") ∧
    (pystr "a", pystr "b@c") ≠ (pystr "a@b", pystr "c") := by decide

/-- C2 (amended): for every authority string containing `@`, the parser
takes everything before the FIRST `@` as userinfo and everything after
it as the host; the userinfo is then split into username and password on
its first `:` and both are strictly percent-decoded (UTF-8, the record's
encoding). -/
theorem claim2_authority_first_amended (a : PyStr) (h : '@' ∈ a) :
    parseAuthority a =
      (a.takeWhile (· ≠ '@'), a.drop ((a.takeWhile (· ≠ '@')).length + 1)) ∧
    a = a.takeWhile (· ≠ '@') ++ '@' :: a.drop ((a.takeWhile (· ≠ '@')).length + 1) ∧
    (∀ (r : URLInfo) (u : PyStr),
      userinfoSet r u =
        match percentDecode (u.takeWhile (· ≠ ':')) true,
              percentDecode (u.drop ((u.takeWhile (· ≠ ':')).length + 1)) true with
        | some un, some pw => .ok { r with username := some un, password := some pw }
        | _, _ => .err .decodeFail) := by
  refine ⟨?_, mem_split_first a '@' h, ?_⟩
  · unfold parseAuthority
    rw [pyPartition_eq]
    simp [h]
  · intro r u
    unfold userinfoSet parseUserinfo
    rw [pyPartition_eq]

/-- C2 witness: the amended statement applied to `'user:pw@host'`. -/
theorem claim2_witness :
    parseAuthority (pystr "user:pw@host") =
      ((pystr "user:pw@host").takeWhile (· ≠ '@'),
       (pystr "user:pw@host").drop
         (((pystr "user:pw@host").takeWhile (· ≠ '@')).length + 1)) ∧
    pystr "user:pw@host" =
      (pystr "user:pw@host").takeWhile (· ≠ '@') ++
        '@' :: (pystr "user:pw@host").drop
          (((pystr "user:pw@host").takeWhile (· ≠ '@')).length + 1) ∧
    (∀ (r : URLInfo) (u : PyStr),
      userinfoSet r u =
        match percentDecode (u.takeWhile (· ≠ ':')) true,
              percentDecode (u.drop ((u.takeWhile (· ≠ ':')).length + 1)) true with
        | some un, some pw => .ok { r with username := some un, password := some pw }
        | _, _ => .err .decodeFail) :=
  claim2_authority_first_amended (pystr "user:pw@host") (by decide)

/-- C1: the round-trip law fails on the code.  For the URL
`http://a%2541b@x/` the first parse stores the decoded username `a%41b`
and renders it unescaped (the username encode set does not contain `%`),
so the second parse decodes `%41` again and renders `http://aAb@x/`,
different from the first rendering `http://a%41b@x/`.  The spec states
the law and the repository's own round-trip test asserts it, so this is
recorded as a defect of the code. -/
theorem claim1_roundtrip_bug :
    parseUrl (pystr "http://a%2541b@x/") = some (pystr "http://a%41b@x/") ∧
    parseUrl (pystr "http://a%41b@x/") = some (pystr "http://aAb@x/") ∧
    pystr "http://a%41b@x/" ≠ pystr "http://aAb@x/" := by decide

/-! ## Claim C8: default-port omission -/

/-- A record with a hostname but no port: rendering omits the port even
though the port does not equal the scheme's default. -/
def c8NoPortRec : URLInfo :=
  { scheme := some (pystr "http"), hostname := some (pystr "example.com") }

/-- C8 counterexample: for a record with hostname set and port absent,
the rendered host omits the `:port` suffix although the record's port
(absent) does not equal the scheme's default port 80, refuting the
claimed "exactly when". -/
theorem claim8_counterexample :
    ¬ (hostProp c8NoPortRec =
         some (hostDisplay c8NoPortRec (pystr "example.com")) ↔
       c8NoPortRec.port = some 80) := by decide

/-- C8 (amended): for every record with a truthy hostname and a scheme
in the relative-scheme table, the rendered host omits the `:port` suffix
exactly when the port is falsy (absent or zero) or equals the scheme's
default port; otherwise the port is appended after a colon. -/
theorem claim8_default_port_amended (r : URLInfo) (h : PyStr)
    (hh : r.hostname = some h) (hne : h ≠ [])
    (hs : isRelativeScheme r.scheme = true) :
    (hostProp r = some (hostDisplay r h) ↔
      (¬ intTruthy r.port ∨ r.port = defaultPortOf r.scheme)) ∧
    (intTruthy r.port → r.port ≠ defaultPortOf r.scheme →
      ∃ p, r.port = some p ∧
        hostProp r = some (hostDisplay r h ++ ':' :: intToDec p)) := by
  have hlen : ∀ (a b : PyStr) (c : Char), a ≠ a ++ c :: b := by
    intro a b c heq
    have := congrArg List.length heq
    simp at this
  obtain ⟨dp, hdp⟩ : ∃ dp, defaultPortOf r.scheme = some dp := by
    unfold isRelativeScheme at hs
    cases hd : defaultPortOf r.scheme with
    | none => rw [hd] at hs; simp at hs
    | some dp => exact ⟨dp, rfl⟩
  cases h with
  | nil => exact absurd rfl hne
  | cons c t =>
    unfold hostProp
    rw [hh]
    cases hp : r.port with
    | none => simp [intTruthy, hp]
    | some p =>
      by_cases hz : p = 0
      · subst hz
        simp [intTruthy, hp]
      · rw [hdp]
        by_cases hne' : dp = p
        · subst hne'
          simp [intTruthy, hp, hz, hdp]
        · simp only [if_neg hz, if_neg (by omega : ¬ p = 0), ne_eq, hne',
            not_false_eq_true, if_pos, ite_true, intTruthy, hp, hdp]
          constructor
          · constructor
            · intro hcontra
              exfalso
              have := Option.some.inj hcontra
              exact hlen _ _ _ this.symm
            · intro hor
              rcases hor with h1 | h1
              · simp at h1; omega
              · rw [Option.some.injEq] at h1; omega
          · intro _ _
            exact ⟨p, rfl, rfl⟩

/-- C8 witness: the amended statement applied to a concrete record with
hostname `example.com`, scheme `http` and port 8080. -/
theorem claim8_witness :
    (hostProp { scheme := some (pystr "http"),
                hostname := some (pystr "example.com"),
                port := some 8080 } =
       some (hostDisplay { scheme := some (pystr "http"),
                           hostname := some (pystr "example.com"),
                           port := some 8080 } (pystr "example.com")) ↔
      (¬ intTruthy (some 8080) ∨
        (some 8080 : Option Int) =
          defaultPortOf (some (pystr "http")))) ∧
    (intTruthy (some 8080) →
      (some 8080 : Option Int) ≠ defaultPortOf (some (pystr "http")) →
      ∃ p, (some 8080 : Option Int) = some p ∧
        hostProp { scheme := some (pystr "http"),
                   hostname := some (pystr "example.com"),
                   port := some 8080 } =
          some (hostDisplay { scheme := some (pystr "http"),
                              hostname := some (pystr "example.com"),
                              port := some 8080 } (pystr "example.com") ++
                ':' :: intToDec p)) :=
  claim8_default_port_amended _ (pystr "example.com") rfl (by decide) (by decide)

/-! ## Claim C5: the percent-encoding byte rule -/

/-- Uppercase hex character codes, claim-side: digit values below 10 map
to `'0'..'9'`, the rest to `'A'..'F'`. -/
theorem hexUpperDigit_code : ∀ d : Nat, d < 16 →
    cp (hexUpperDigit d) = if d < 10 then 48 + d else 55 + d := by decide

/-- C5: `percent_encode_bytes` maps each input byte independently and in
order; a byte in the C0 range (below 0x20), at or above 0x7F, or in the
escape set becomes `%XX` with uppercase hex digits, and every other byte
passes through unchanged. -/
theorem claim5_percent_encode_bytes (data S : List Nat) :
    percentEncodeBytes data S = (data.map (percentEncodeByteImg S)).flatten ∧
    (∀ b : Nat, b < 256 →
      ((b < 0x20 ∨ 0x7F ≤ b ∨ b ∈ S) →
        percentEncodeByteImg S b =
          [0x25,
           (if b / 16 < 10 then 48 + b / 16 else 55 + b / 16),
           (if b % 16 < 10 then 48 + b % 16 else 55 + b % 16)]) ∧
      (¬ (b < 0x20 ∨ 0x7F ≤ b ∨ b ∈ S) →
        percentEncodeByteImg S b = [b])) := by
  refine ⟨rfl, ?_⟩
  intro b hb
  have hdiv : b / 16 < 16 := by omega
  have hmod : b % 16 < 16 := by omega
  constructor
  · intro hcond
    unfold percentEncodeByteImg
    rw [if_pos (by rcases hcond with h | h | h <;> [omega; (right; left; omega); simp [h]])]
    rw [hexUpperDigit_code _ hdiv, hexUpperDigit_code _ hmod]
  · intro hcond
    push_neg at hcond
    unfold percentEncodeByteImg
    rw [if_neg]
    rintro (h | h | h)
    · omega
    · omega
    · exact absurd h hcond.2.2

/-- C5 witness: the characterization applied to the bytes 0xFF (always
escaped as `%FF`) and `'A'` (passed through) with the default set. -/
theorem claim5_witness :
    percentEncodeByteImg DEFAULT_ENCODE_SET 255 =
      [0x25, (if 255 / 16 < 10 then 48 + 255 / 16 else 55 + 255 / 16),
       (if 255 % 16 < 10 then 48 + 255 % 16 else 55 + 255 % 16)] ∧
    percentEncodeByteImg DEFAULT_ENCODE_SET 65 = [65] :=
  ⟨((claim5_percent_encode_bytes [] DEFAULT_ENCODE_SET).2 255 (by decide)).1
      (by decide),
   ((claim5_percent_encode_bytes [] DEFAULT_ENCODE_SET).2 65 (by decide)).2
      (by decide)⟩

/-! ## Claim C6: path flattening -/

/-- The dot-segment resolution the claim describes, written with an
explicit stack: `.` is dropped, `..` pops the last retained segment when
one exists (never ascending above empty), all other segments are
retained in order. -/
def dotResolveRev : List PyStr → List PyStr → List PyStr
  | [], stack => stack.reverse
  | s :: t, stack =>
    if s = pystr "." then dotResolveRev t stack
    else if s = pystr ".." then dotResolveRev t stack.tail
    else dotResolveRev t (s :: stack)

/-- `flattenStep` on a dot segment. -/
theorem flattenStep_dot (acc : List PyStr) : flattenStep acc (pystr ".") = acc := by
  simp [flattenStep]

/-- `flattenStep` on a dot-dot segment. -/
theorem flattenStep_dotdot (acc : List PyStr) :
    flattenStep acc (pystr "..") = if acc ≠ [] then acc.dropLast else acc := by
  unfold flattenStep
  rw [if_neg (by decide), if_neg (by decide)]

/-- `flattenStep` on an ordinary segment. -/
theorem flattenStep_other (acc : List PyStr) (s : PyStr)
    (h1 : s ≠ pystr ".") (h2 : s ≠ pystr "..") :
    flattenStep acc s = acc ++ [s] := by
  unfold flattenStep
  rw [if_neg h1, if_pos (by simp [h2])]

/-- Unfolding `dotResolveRev` on a dot segment. -/
theorem dotResolveRev_dot (t : List PyStr) (st : List PyStr) :
    dotResolveRev (pystr "." :: t) st = dotResolveRev t st := by
  simp [dotResolveRev]

/-- Unfolding `dotResolveRev` on a dot-dot segment. -/
theorem dotResolveRev_dotdot (t : List PyStr) (st : List PyStr) :
    dotResolveRev (pystr ".." :: t) st = dotResolveRev t st.tail := by
  simp [dotResolveRev]
  intro h
  exact absurd h (by decide)

/-- Unfolding `dotResolveRev` on an ordinary segment. -/
theorem dotResolveRev_other (t : List PyStr) (st : List PyStr) (s : PyStr)
    (h1 : s ≠ pystr ".") (h2 : s ≠ pystr "..") :
    dotResolveRev (s :: t) st = dotResolveRev t (s :: st) := by
  simp only [dotResolveRev]
  rw [if_neg h1, if_neg h2]

/-- The source's deque fold agrees with the claim's stack recursion. -/
theorem flattenParts_eq_dotResolveRev (segs : List PyStr) :
    ∀ acc : List PyStr,
      List.foldl flattenStep acc segs = dotResolveRev segs acc.reverse := by
  induction segs with
  | nil => intro acc; simp [dotResolveRev]
  | cons s t ih =>
    intro acc
    simp only [List.foldl]
    by_cases h1 : s = pystr "."
    · subst h1
      rw [flattenStep_dot, ih, dotResolveRev_dot]
    · by_cases h2 : s = pystr ".."
      · subst h2
        rw [flattenStep_dotdot, ih, dotResolveRev_dotdot]
        by_cases h3 : acc = []
        · subst h3; simp
        · rw [if_pos h3]
          congr 1
          exact (List.tail_reverse acc).symm
      · rw [flattenStep_other acc s h1 h2, ih, dotResolveRev_other t _ s h1 h2]
        congr 1
        simp

/-- C6: `flatten_path` splits on `/`, drops `.` segments, lets `..` pop
the last retained segment when one exists and drops it otherwise,
retains every other segment (including empty ones) in order, rejoins
with `/`, and collapses slash runs only afterwards and only when
`flatten_slashes` is set; with the three documented examples. -/
theorem claim6_flatten_path :
    (∀ (p : PyStr) (fs : Bool),
      flattenPath p fs =
        (let flat := pyJoin (dotResolveRev (pySplit p '/') []) '/'
         if fs then collapseSlashes flat else flat)) ∧
    flattenPath (pystr "dog/cat/../bird") false = pystr "dog/bird" ∧
    flattenPath (pystr "../../") false = pystr "" ∧
    flattenPath (pystr "a////../../b") true = pystr "a/b" := by
  refine ⟨?_, by decide, by decide, by decide⟩
  intro p fs
  unfold flattenPath flattenParts
  rw [flattenParts_eq_dotResolveRev (pySplit p '/') []]
  rfl

/-! ## Claim C3: IPv4 literal recognition -/

/-- `mapOpt` success means pointwise success on the inputs. -/
theorem mapOpt_forall_inputs {α β : Type} (f : α → Option β) :
    ∀ (l : List α) (l' : List β), mapOpt f l = some l' →
      ∀ x ∈ l, (f x).isSome := by
  intro l
  induction l with
  | nil => intro l' _ x hx; cases hx
  | cons a t ih =>
    intro l' h x hx
    simp only [mapOpt] at h
    cases hfa : f a with
    | none => rw [hfa] at h; simp at h
    | some y =>
      rw [hfa] at h
      cases hmt : mapOpt f t with
      | none => rw [hmt] at h; simp at h
      | some ys =>
        rcases List.mem_cons.mp hx with rfl | hx
        · simp [hfa]
        · exact ih ys hmt x hx

/-- Decimal digits are not Python whitespace. -/
theorem decDigit_not_space (c : Char) (h : isDecDigit c = true) :
    pyIsSpace c = false := by
  unfold isDecDigit at h
  unfold pyIsSpace
  simp only [decide_eq_true_eq] at h
  simp only [List.mem_cons, List.not_mem_nil, or_false, decide_eq_false_iff_not]
  omega

/-- `dropWhile` is the identity when no character satisfies the test. -/
theorem dropWhile_eq_self_of_none (l : PyStr) (p : Char → Bool)
    (h : ∀ c ∈ l, p c = false) : l.dropWhile p = l := by
  cases l with
  | nil => rfl
  | cons x t => rw [List.dropWhile_cons_of_neg (by simp [h x (by simp)])]

/-- `pyStrip` is the identity on all-decimal-digit strings. -/
theorem pyStrip_digits (p : PyStr) (hd : p.all isDecDigit) : pyStrip p = p := by
  have hall : ∀ c ∈ p, pyIsSpace c = false := by
    intro c hc
    exact decDigit_not_space c (by simpa using List.all_eq_true.mp hd c hc)
  unfold pyStrip
  rw [dropWhile_eq_self_of_none p _ hall,
    dropWhile_eq_self_of_none p.reverse _ (by simpa using fun c hc => hall c hc),
    List.reverse_reverse]

/-- All-digit strings have no adjacent underscores. -/
theorem noDoubleUnderscore_of_no_underscore :
    ∀ l : PyStr, (∀ c ∈ l, c ≠ '_') → noDoubleUnderscore l = true := by
  intro l
  induction l with
  | nil => intro _; rfl
  | cons c t ih =>
    intro h
    cases t with
    | nil => rfl
    | cons d u =>
      simp only [noDoubleUnderscore, Bool.and_eq_true, decide_eq_true_eq]
      refine ⟨by simp [h c (by simp)], ih ?_⟩
      intro x hx
      exact h x (by simp [hx])

/-- `digitValB` in base ten on a decimal digit. -/
theorem digitValB_ten (c : Char) (h : isDecDigit c = true) :
    digitValB 10 c = some (cp c - 48) := by
  unfold isDecDigit at h
  simp only [decide_eq_true_eq] at h
  unfold digitValB
  rw [if_pos (by omega)]
  simp only []
  rw [if_pos (by omega)]

/-- The base-10 magnitude fold agrees with the plain decimal fold. -/
theorem foldl_digit_eq :
    ∀ (l : PyStr), (∀ c ∈ l, isDecDigit c = true) → ∀ init : Nat,
      l.foldl (fun a c => a * 10 + (digitValB 10 c).getD 0) init =
        l.foldl (fun a c => a * 10 + (cp c - 48)) init := by
  intro l
  induction l with
  | nil => intro _ _; rfl
  | cons c t ih =>
    intro h init
    simp only [List.foldl]
    rw [digitValB_ten c (h c (by simp))]
    exact ih (fun x hx => h x (by simp [hx])) _

/-- `int(p, 10)` on a nonempty all-decimal-digit string is the decimal
value. -/
theorem pyInt_decimal (p : PyStr) (hne : p ≠ []) (hd : p.all isDecDigit) :
    pyInt p 10 =
      some ((p.foldl (fun a c => a * 10 + (cp c - 48)) 0 : Nat) : Int) := by
  have hall : ∀ c ∈ p, isDecDigit c = true := fun c hc => by
    simpa using List.all_eq_true.mp hd c hc
  unfold pyInt
  rw [pyStrip_digits p hd]
  cases p with
  | nil => exact absurd rfl hne
  | cons c r =>
    have hc : isDecDigit c = true := hall c (by simp)
    have hcd : 48 ≤ cp c ∧ cp c ≤ 57 := by
      unfold isDecDigit at hc; simpa using hc
    have hplus : ¬ c = '+' := by
      intro h; subst h; simp [cp] at hcd
    have hminus : ¬ c = '-' := by
      intro h; subst h; simp [cp] at hcd
    have hnu : ∀ x ∈ c :: r, x ≠ '_' := by
      intro x hx heq
      have := hall x hx
      subst heq
      unfold isDecDigit at this
      simp [cp] at this
    have hok : pyIntDigitsOk (c :: r) 10 = true := by
      unfold pyIntDigitsOk
      simp only [Bool.and_eq_true, decide_eq_true_eq]
      refine ⟨by simp, ?_, ?_, noDoubleUnderscore_of_no_underscore _ hnu, ?_⟩
      · intro h
        exact hnu c (by simp) (by simpa using h)
      · intro h
        cases hl : (c :: r).getLast? with
        | none => simp [hl] at h
        | some z =>
          rw [hl] at h
          exact hnu z (List.mem_of_mem_getLast? hl) (by simpa using h)
      · apply List.all_eq_true.mpr
        intro x hx
        simp only [decide_eq_true_eq]
        right
        rw [digitValB_ten x (hall x hx)]
        rfl
    have hmag : pyIntAfterSign (c :: r) 10 =
        some ((c :: r).foldl (fun a x => a * 10 + (cp x - 48)) 0) := by
      unfold pyIntAfterSign pyIntStripMarker
      rw [if_neg (by rintro (⟨h, _⟩ | ⟨h, _⟩ | ⟨h, _⟩) <;> omega)]
      unfold pyIntMag
      rw [if_pos hok,
        List.filter_eq_self.mpr (fun x hx => by simpa using hnu x hx),
        foldl_digit_eq _ hall 0]
    simp only [if_neg hplus, if_neg hminus, hmag, Option.map_some]
    rfl

/-- A strict dotted-quad octet is also accepted by `parse_ipv4_int` with
the same value, within 0–255. -/
theorem octet_to_parseIpv4Int (p : PyStr) (w : Nat)
    (h : ipv4ParseOctet p = some w) :
    parseIpv4Int p = some ((w : Nat) : Int) ∧
      (0 : Int) ≤ (w : Int) ∧ (w : Int) ≤ 255 := by
  unfold ipv4ParseOctet at h
  split_ifs at h with h1 h2 h3 h4 h5
  simp only [Option.some.injEq] at h
  push_neg at h2
  have hle : w ≤ 255 := by omega
  cases p with
  | nil => exact absurd rfl h1
  | cons c r =>
    have hall : ∀ x ∈ c :: r, isDecDigit x = true := fun x hx => by
      simpa using List.all_eq_true.mp h2 x hx
    refine ⟨?_, by omega, by omega⟩
    by_cases hc : c = '0'
    · have hp0 : (c :: r) = pystr "0" := by
        by_cases hq : (c :: r) = pystr "0"
        · exact hq
        · exact absurd ⟨hq, by simp [hc]⟩ h4
      rw [hp0]
      rw [hp0] at h
      have hw : w = 0 := by simpa [List.foldl, cp] using h.symm
      subst hw
      decide
    · have e1 : pystr "0x" = ['0', 'x'] := rfl
      have e2 : pystr "0" = ['0'] := rfl
      have hb : ('0' == c) = false := by
        simp only [beq_eq_false_iff_ne, ne_eq]
        exact fun hh => hc hh.symm
      unfold parseIpv4Int
      rw [e1, e2]
      rw [if_neg (by simp [List.isPrefixOf, hb]),
        if_neg (by simp [List.isPrefixOf, hb])]
      rw [pyInt_decimal (c :: r) (by simp) h2]
      rw [h]

/-- Acceptance of the per-part range check in the dotted branch of
`parse_ipv4_address`. -/
theorem ipv4PartCheck_isSome_iff (p : PyStr) :
    (((parseIpv4Int p).bind fun v =>
        if 0 ≤ v ∧ v ≤ 255 then some v.toNat else none)).isSome ↔
      ∃ v : Int, parseIpv4Int p = some v ∧ 0 ≤ v ∧ v ≤ 255 := by
  cases hpi : parseIpv4Int p with
  | none => simp
  | some w =>
    by_cases hr : 0 ≤ w ∧ w ≤ 255
    · simp [hr]
    · simp [hr]

/-- A successful strict parse satisfies the dotted-quad condition. -/
theorem ipv4Strict_to_condition (a : PyStr) (w : Nat)
    (h : ipv4Strict a = some w) :
    (pySplit a '.').length = 4 ∧
      ∀ p ∈ pySplit a '.', ∃ v : Int,
        parseIpv4Int p = some v ∧ 0 ≤ v ∧ v ≤ 255 := by
  unfold ipv4Strict at h
  split_ifs at h with hs hl
  refine ⟨hl, fun p hp => ?_⟩
  cases hmo : mapOpt ipv4ParseOctet (pySplit a '.') with
  | none =>
    rw [hmo] at h
    simp at h
  | some ys =>
    have hsome := mapOpt_forall_inputs _ _ ys hmo p hp
    obtain ⟨wv, hwv⟩ := Option.isSome_iff_exists.mp hsome
    obtain ⟨hh1, hh2, hh3⟩ := octet_to_parseIpv4Int p wv hwv
    exact ⟨(wv : Int), hh1, hh2, hh3⟩

/-- C3 (amended): `parse_ipv4_address` accepts a candidate exactly when
it is a dotted form with exactly four parts, each accepted by
`parse_ipv4_int` (decimal, octal `0`-prefix, or hex `0x`-prefix) in
0–255, or a single collapsed integer part in 0–2^32-1; 2-part and 3-part
forms are always rejected (the part count is neither 1 nor 4).  The
stored hostname is the canonical dotted quad:
`parse('http://0xC0.0x00.0x02.0xEB')` yields hostname `192.0.2.235`. -/
theorem claim3_ipv4_amended :
    (∀ a : PyStr,
      (parseIpv4Address a).isSome ↔
        ((pySplit a '.').length = 4 ∧
          ∀ p ∈ pySplit a '.', ∃ v : Int,
            parseIpv4Int p = some v ∧ 0 ≤ v ∧ v ≤ 255) ∨
        ((pySplit a '.').length = 1 ∧
          ∃ v : Int, parseIpv4Int a = some v ∧ 0 ≤ v ∧ v < 4294967296)) ∧
    (match parse (pystr "http://0xC0.0x00.0x02.0xEB") (some (pystr "http")) with
     | .ok r => r.hostname
     | .err _ => none) = some (pystr "192.0.2.235") := by
  refine ⟨?_, by decide⟩
  intro a
  constructor
  · intro hsome
    obtain ⟨v, hv⟩ := Option.isSome_iff_exists.mp hsome
    unfold parseIpv4Address at hv
    cases hstrict : ipv4Strict a with
    | some w => exact Or.inl (ipv4Strict_to_condition a w hstrict)
    | none =>
      rw [hstrict] at hv
      simp only [] at hv
      by_cases h4 : (pySplit a '.').length = 4
      · rw [if_pos h4] at hv
        refine Or.inl ⟨h4, fun p hp => ?_⟩
        cases hmo : mapOpt
            (fun p => (parseIpv4Int p).bind fun v =>
              if 0 ≤ v ∧ v ≤ 255 then some v.toNat else none)
            (pySplit a '.') with
        | none =>
          rw [hmo] at hv
          simp at hv
        | some ys =>
          have hsm := mapOpt_forall_inputs _ _ ys hmo p hp
          exact (ipv4PartCheck_isSome_iff p).mp hsm
      · rw [if_neg h4] at hv
        by_cases h1 : (pySplit a '.').length = 1
        · rw [if_pos h1] at hv
          refine Or.inr ⟨h1, ?_⟩
          cases hpi : parseIpv4Int a with
          | none =>
            rw [hpi] at hv
            simp at hv
          | some w =>
            rw [hpi] at hv
            by_cases hr : 0 ≤ w ∧ w < 4294967296
            · exact ⟨w, rfl, hr.1, hr.2⟩
            · simp [hr] at hv
        · rw [if_neg h1] at hv
          simp at hv
  · intro hcond
    unfold parseIpv4Address
    cases hstrict : ipv4Strict a with
    | some w => simp
    | none =>
      simp only []
      rcases hcond with ⟨h4, hall⟩ | ⟨h1, v, hv, hr1, hr2⟩
      · rw [if_pos h4]
        have : (mapOpt
            (fun p => (parseIpv4Int p).bind fun v =>
              if 0 ≤ v ∧ v ≤ 255 then some v.toNat else none)
            (pySplit a '.')).isSome := by
          apply mapOpt_isSome
          intro p hp
          exact (ipv4PartCheck_isSome_iff p).mpr (hall p hp)
        obtain ⟨ys, hys⟩ := Option.isSome_iff_exists.mp this
        rw [hys]
        simp
      · rw [if_neg (by omega), if_pos h1, hv]
        simp [hr1, hr2]

/-- C3 counterexample: the 2-part form `123.123` and the 3-part form
`1.2.3` are valid classic `inet_aton` notations (within range), yet
`parse_ipv4_address` rejects both, so the claimed acceptance of 2-part
and 3-part integer forms is false. -/
theorem claim3_counterexample :
    parseIpv4Address (pystr "123.123") = none ∧
    parseIpv4Address (pystr "1.2.3") = none := by decide

/-- C3 witness: the amended acceptance condition applied to the
collapsed decimal form `3221226219`. -/
theorem claim3_witness :
    (parseIpv4Address (pystr "3221226219")).isSome :=
  (claim3_ipv4_amended.1 (pystr "3221226219")).mpr (by decide)

/-! ## Claim C7: lenient percent-decoding -/

/-- Whether a string begins with a well-formed escape: `%` followed by
two hex digits. -/
def isEscapeHead : PyStr → Bool
  | c :: a :: b :: _ => decide (c = '%') && isHexDigit a && isHexDigit b
  | _ => false

/-- Whether a well-formed escape occurs anywhere in the string. -/
def hasEscapeTriple : PyStr → Bool
  | [] => false
  | c :: t => isEscapeHead (c :: t) || hasEscapeTriple t

/-- A well-formed escape at the head survives appending. -/
theorem isEscapeHead_append (l v : PyStr) (h : isEscapeHead l = true) :
    isEscapeHead (l ++ v) = true := by
  match l with
  | [] => simp [isEscapeHead] at h
  | [c] => simp [isEscapeHead] at h
  | [c, a] => simp [isEscapeHead] at h
  | c :: a :: b :: t => simpa [isEscapeHead] using h

/-- A well-formed escape in a prefix is one in the whole. -/
theorem hasEscapeTriple_append_left (u v : PyStr)
    (h : hasEscapeTriple u = true) : hasEscapeTriple (u ++ v) = true := by
  induction u with
  | nil => simp [hasEscapeTriple] at h
  | cons c t ih =>
    simp only [hasEscapeTriple, Bool.or_eq_true] at h
    simp only [List.cons_append, hasEscapeTriple, Bool.or_eq_true]
    rcases h with h | h
    · exact Or.inl (by simpa using isEscapeHead_append (c :: t) v h)
    · exact Or.inr (ih h)

/-- A well-formed escape in a suffix is one in the whole. -/
theorem hasEscapeTriple_append_right (u v : PyStr)
    (h : hasEscapeTriple v = true) : hasEscapeTriple (u ++ v) = true := by
  induction u with
  | nil => simpa using h
  | cons c t ih =>
    simp only [List.cons_append, hasEscapeTriple, Bool.or_eq_true]
    exact Or.inr ih

/-- Escape-freedom restricts to both halves of an append. -/
theorem noTriple_of_append (u v : PyStr)
    (h : hasEscapeTriple (u ++ v) = false) :
    hasEscapeTriple u = false ∧ hasEscapeTriple v = false := by
  constructor
  · by_cases hu : hasEscapeTriple u = true
    · rw [hasEscapeTriple_append_left u v hu] at h; simp at h
    · simpa using hu
  · by_cases hv : hasEscapeTriple v = true
    · rw [hasEscapeTriple_append_right u v hv] at h; simp at h
    · simpa using hv

/-- `pySplit` never returns an empty list of parts. -/
theorem pySplit_ne_nil (l : PyStr) (c : Char) : pySplit l c ≠ [] := by
  cases l with
  | nil => simp [pySplit]
  | cons x xs =>
    simp only [pySplit]
    split_ifs
    · simp
    · cases h : pySplit xs c <;> simp

/-- A cons-shaped `takeWhile` exposes the head of the original list. -/
theorem takeWhile_eq_cons (p : Char → Bool) (l : PyStr) (a : Char) (s : PyStr)
    (h : l.takeWhile p = a :: s) :
    ∃ l', l = a :: l' ∧ p a = true ∧ l'.takeWhile p = s := by
  cases l with
  | nil => simp at h
  | cons x xs =>
    rw [List.takeWhile_cons] at h
    by_cases hp : p x = true
    · rw [if_pos hp] at h
      injection h with h1 h2
      subst h1
      exact ⟨xs, rfl, hp, h2⟩
    · rw [if_neg hp] at h
      simp at h

/-- The head part of `pySplit` is the `takeWhile` before the separator. -/
theorem pySplit_head (l : PyStr) (c : Char) :
    ∃ t, pySplit l c = (l.takeWhile (· ≠ c)) :: t := by
  induction l with
  | nil => exact ⟨[], rfl⟩
  | cons x xs ih =>
    by_cases hx : x = c
    · subst hx
      refine ⟨pySplit xs x, ?_⟩
      simp [pySplit, List.takeWhile_cons]
    · obtain ⟨t, ht⟩ := ih
      refine ⟨t, ?_⟩
      simp only [pySplit, if_neg hx, ht, List.takeWhile_cons]
      rw [if_pos (by simp [hx])]

/-- An escape-free chunk unescapes to exactly its own bytes. -/
theorem unquoteChunkBytes_id (run : PyStr) (h : hasEscapeTriple run = false) :
    unquoteChunkBytes run = run.map cp := by
  induction run with
  | nil => rfl
  | cons x rest ih =>
    have hparts : isEscapeHead (x :: rest) = false ∧
        hasEscapeTriple rest = false := by
      simpa [hasEscapeTriple] using h
    by_cases hx : x = '%'
    · subst hx
      obtain ⟨t, ht⟩ := pySplit_head rest '%'
      have hMain : unquoteItemBytes (rest.takeWhile (· ≠ '%')) =
          0x25 :: (rest.takeWhile (· ≠ '%')).map cp := by
        cases htw : rest.takeWhile (· ≠ '%') with
        | nil => rfl
        | cons a s =>
          cases s with
          | nil => rfl
          | cons b s2 =>
            obtain ⟨l1, hl1, _, htw1⟩ := takeWhile_eq_cons _ rest a _ htw
            obtain ⟨l2, hl2, _, _⟩ := takeWhile_eq_cons _ l1 b _ htw1
            have hres : rest = a :: b :: l2 := by rw [hl1, hl2]
            have hhex : ¬ (isHexDigit a = true ∧ isHexDigit b = true) := by
              intro ⟨ha, hb⟩
              rw [hres] at hparts
              simp [isEscapeHead, ha, hb] at hparts
            unfold unquoteItemBytes
            simp only []
            rw [if_neg hhex]
      have hrw : unquoteChunkBytes rest =
          (rest.takeWhile (· ≠ '%')).map cp ++ (t.map unquoteItemBytes).flatten := by
        unfold unquoteChunkBytes
        rw [ht]
      have hid : (rest.takeWhile (· ≠ '%')).map cp ++
          (t.map unquoteItemBytes).flatten = rest.map cp := by
        rw [← hrw, ih hparts.2]
      have hsplit : pySplit ('%' :: rest) '%' =
          [] :: rest.takeWhile (· ≠ '%') :: t := by
        simp [pySplit, ht]
      unfold unquoteChunkBytes
      rw [hsplit]
      simp only [List.map_cons, List.flatten_cons, hMain, List.nil_append,
        List.cons_append, List.append_assoc]
      rw [hid]
      rfl
    · unfold unquoteChunkBytes
      simp only [pySplit, if_neg hx]
      cases hsp : pySplit rest '%' with
      | nil => exact absurd hsp (pySplit_ne_nil rest '%')
      | cons h0 t0 =>
        have hrw : unquoteChunkBytes rest =
            h0.map cp ++ (t0.map unquoteItemBytes).flatten := by
          unfold unquoteChunkBytes
          rw [hsp]
        simp only [List.map_cons, List.cons_append]
        rw [← hrw, ih hparts.2]

/-- Strings shorter than three characters hold no escape at the head. -/
theorem isEscapeHead_short (l : PyStr) (h : l.length < 3) :
    isEscapeHead l = false := by
  match l with
  | [] => rfl
  | [a] => rfl
  | [a, b] => rfl
  | a :: b :: c :: t => exact absurd h (by simp)

/-- Singletons are escape-free. -/
theorem hasEscapeTriple_singleton (c : Char) : hasEscapeTriple [c] = false := by
  simp [hasEscapeTriple, isEscapeHead_short]

/-- ASCII byte lists decode to themselves. -/
theorem utf8Go_ascii (strict : Bool) :
    ∀ l : PyStr, (∀ c ∈ l, isAsciiCp c = true) →
      utf8Go strict none (l.map cp) = some l := by
  intro l
  induction l with
  | nil => intro _; rfl
  | cons c t ih =>
    intro h
    have hc : cp c < 0x80 := by
      have := h c (by simp)
      simpa [isAsciiCp] using this
    simp only [List.map_cons, utf8Go]
    rw [if_pos hc, ih (fun x hx => h x (by simp [hx]))]
    simp [Char.ofNat_toNat, cp]

/-- The replace-mode decoder never fails. -/
theorem utf8Go_replace_total :
    ∀ (l : List Nat) (st : Option (Nat × Nat × Nat)),
      (utf8Go false st l).isSome := by
  intro l
  induction l with
  | nil =>
    intro st
    cases st with
    | none => simp [utf8Go]
    | some p => simp [utf8Go]
  | cons b rest ih =>
    intro st
    cases st with
    | none =>
      simp only [utf8Go]
      split_ifs <;> simp_all [ih]
    | some p =>
      obtain ⟨lead, got, acc⟩ := p
      simp only [utf8Go]
      split_ifs <;> simp_all [ih]

/-- The concatenation of the runs is the original string. -/
def segsFlatten (segs : List (Bool × PyStr)) : PyStr :=
  segs.foldr (fun seg acc => seg.2 ++ acc) []

/-- `runsBy` partitions the string. -/
theorem runsBy_flatten (p : Char → Bool) :
    ∀ s : PyStr, segsFlatten (runsBy p s) = s := by
  intro s
  induction s with
  | nil => rfl
  | cons c rest ih =>
    simp only [runsBy]
    cases hr : runsBy p rest with
    | nil =>
      rw [hr] at ih
      simp only [segsFlatten, List.foldr] at ih ⊢
      simp [← ih]
    | cons pr t =>
      obtain ⟨b, seg⟩ := pr
      rw [hr] at ih
      simp only []
      by_cases hb : p c = b
      · rw [if_pos hb]
        simp only [segsFlatten, List.foldr] at ih ⊢
        simp [ih]
      · rw [if_neg hb]
        simp only [segsFlatten, List.foldr] at ih ⊢
        simp [ih]

/-- Every character of a run satisfies the predicate according to the
run's tag. -/
theorem runsBy_tags (p : Char → Bool) :
    ∀ (s : PyStr) (pr : Bool × PyStr), pr ∈ runsBy p s →
      ∀ c ∈ pr.2, p c = pr.1 := by
  intro s
  induction s with
  | nil => intro pr hpr; cases hpr
  | cons c rest ih =>
    intro pr hpr
    simp only [runsBy] at hpr
    cases hr : runsBy p rest with
    | nil =>
      rw [hr] at hpr
      simp only [List.mem_singleton] at hpr
      subst hpr
      intro x hx
      simp only [List.mem_singleton] at hx
      subst hx
      rfl
    | cons qr t =>
      obtain ⟨b, seg⟩ := qr
      rw [hr] at hpr
      simp only [] at hpr
      by_cases hb : p c = b
      · rw [if_pos hb] at hpr
        rcases List.mem_cons.mp hpr with rfl | hpr
        · intro x hx
          rcases List.mem_cons.mp hx with rfl | hx
          · exact hb
          · exact ih (b, seg) (by rw [hr]; simp) x hx
        · exact ih pr (by rw [hr]; exact List.mem_cons_of_mem _ hpr)
      · rw [if_neg hb] at hpr
        rcases List.mem_cons.mp hpr with rfl | hpr
        · intro x hx
          rcases List.mem_cons.mp hx with rfl | hx
          · rfl
          · cases hx
        · exact ih pr (by rw [hr]; exact hpr)

/-- An ASCII, escape-free chunk decodes to itself in both error modes. -/
theorem chunk_decode_id (strict : Bool) (run : PyStr)
    (hasc : ∀ c ∈ run, isAsciiCp c = true)
    (hnt : hasEscapeTriple run = false) :
    utf8DecodeE strict (unquoteChunkBytes run) = some run := by
  rw [unquoteChunkBytes_id run hnt]
  exact utf8Go_ascii strict run hasc

/-- `unquoteSegs` never fails in replace mode. -/
theorem unquoteSegs_replace_total :
    ∀ segs : List (Bool × PyStr), (unquoteSegs false segs).isSome := by
  intro segs
  induction segs with
  | nil => simp [unquoteSegs]
  | cons pr t ih =>
    obtain ⟨b, run⟩ := pr
    cases b with
    | true =>
      simp only [unquoteSegs]
      cases hd : utf8DecodeE false (unquoteChunkBytes run) with
      | none =>
        have htot := utf8Go_replace_total (unquoteChunkBytes run) none
        rw [show utf8DecodeE false (unquoteChunkBytes run) =
          utf8Go false none (unquoteChunkBytes run) from rfl] at hd
        rw [hd] at htot
        simp at htot
      | some d =>
        cases ht : unquoteSegs false t with
        | none => rw [ht] at ih; simp at ih
        | some r => simp
    | false =>
      simp only [unquoteSegs]
      cases ht : unquoteSegs false t with
      | none => rw [ht] at ih; simp at ih
      | some r => simp

/-- On an escape-free string the whole `unquote` loop is the identity. -/
theorem unquoteSegs_runsBy_id (strict : Bool) :
    ∀ s : PyStr, hasEscapeTriple s = false →
      unquoteSegs strict (runsBy isAsciiCp s) = some s := by
  intro s
  induction s with
  | nil => intro _; rfl
  | cons c rest ih =>
    intro h
    have hparts : isEscapeHead (c :: rest) = false ∧
        hasEscapeTriple rest = false := by
      simpa [hasEscapeTriple] using h
    simp only [runsBy]
    cases hr : runsBy isAsciiCp rest with
    | nil =>
      have hrest : rest = [] := by
        have hf := runsBy_flatten isAsciiCp rest
        rw [hr] at hf
        simpa [segsFlatten] using hf.symm
      subst hrest
      by_cases hc : isAsciiCp c = true
      · rw [hc]
        simp only [unquoteSegs]
        rw [chunk_decode_id strict [c] (by simpa using hc)
          (hasEscapeTriple_singleton c)]
        rfl
      · rw [(by simpa using hc : isAsciiCp c = false)]
        rfl
    | cons qr t =>
      obtain ⟨b, seg⟩ := qr
      have ihv : unquoteSegs strict ((b, seg) :: t) = some rest := by
        rw [← hr]
        exact ih hparts.2
      have hflat : seg ++ segsFlatten t = rest := by
        have hf := runsBy_flatten isAsciiCp rest
        rw [hr] at hf
        simpa [segsFlatten] using hf
      have htags : ∀ x ∈ seg, isAsciiCp x = b :=
        fun x hx => runsBy_tags isAsciiCp rest (b, seg) (by rw [hr]; simp) x hx
      simp only []
      by_cases hb : isAsciiCp c = b
      · rw [if_pos hb]
        cases b with
        | true =>
          have hsegnt : hasEscapeTriple seg = false := by
            have := noTriple_of_append seg (segsFlatten t)
              (by rw [hflat]; exact hparts.2)
            exact this.1
          have hsegdec := chunk_decode_id strict seg htags hsegnt
          simp only [unquoteSegs] at ihv
          rw [hsegdec] at ihv
          simp only [] at ihv
          cases hts : unquoteSegs strict t with
          | none =>
            rw [hts] at ihv
            simp only [] at ihv
            exact absurd ihv (by simp)
          | some r =>
            rw [hts] at ihv
            simp only [] at ihv
            have ihv2 : seg ++ r = rest := Option.some.inj ihv
            have hcseg : hasEscapeTriple (c :: seg) = false := by
              have hcr : (c :: seg) ++ segsFlatten t = c :: rest := by
                simp [hflat]
              exact (noTriple_of_append (c :: seg) (segsFlatten t)
                (by rw [hcr]; exact h)).1
            have hcdec := chunk_decode_id strict (c :: seg)
              (by
                intro x hx
                rcases List.mem_cons.mp hx with rfl | hx
                · exact hb
                · exact htags x hx)
              hcseg
            simp only [unquoteSegs]
            rw [hcdec]
            simp only []
            rw [hts]
            simp only []
            exact congrArg some (by simp [ihv2])
        | false =>
          simp only [unquoteSegs] at ihv
          cases hts : unquoteSegs strict t with
          | none =>
            rw [hts] at ihv
            simp at ihv
          | some r =>
            rw [hts] at ihv
            have ihv2 : seg ++ r = rest := Option.some.inj ihv
            simp only [unquoteSegs]
            rw [hts]
            exact congrArg some (by simp [ihv2])
      · rw [if_neg hb]
        by_cases hc : isAsciiCp c = true
        · rw [hc]
          simp only [unquoteSegs]
          rw [chunk_decode_id strict [c] (by simpa using hc)
            (hasEscapeTriple_singleton c), ihv]
          rfl
        · rw [(by simpa using hc : isAsciiCp c = false)]
          simp only [unquoteSegs]
          rw [ihv]
          rfl

/-- The character map of `unquote_plus` preserves `%` and hex digits, so
escape-freedom is invariant under it. -/
theorem hasEscapeTriple_plus (s : PyStr) :
    hasEscapeTriple (pyReplaceChar s '+' ' ') = hasEscapeTriple s := by
  have hfc : ∀ c : Char,
      decide ((if c = '+' then ' ' else c) = '%') = decide (c = '%') := by
    intro c
    by_cases hc : c = '+'
    · subst hc; decide
    · rw [if_neg hc]
  have hfh : ∀ c : Char,
      isHexDigit (if c = '+' then ' ' else c) = isHexDigit c := by
    intro c
    by_cases hc : c = '+'
    · subst hc; decide
    · rw [if_neg hc]
  unfold pyReplaceChar
  induction s with
  | nil => rfl
  | cons c t ih =>
    simp only [List.map_cons, hasEscapeTriple]
    rw [ih]
    congr 1
    match t with
    | [] => simp [isEscapeHead]
    | [a] => simp [isEscapeHead]
    | a :: b :: u =>
      simp only [List.map_cons, isEscapeHead]
      rw [hfc c, hfh a, hfh b]

theorem utf8ContOk_ascii (lead a : Nat) (ha : a < 0x80) : utf8ContOk lead a = false := by
  unfold utf8ContOk isCont
  split_ifs <;> simp <;> omega

theorem isCont_ascii (a : Nat) (ha : a < 0x80) : isCont a = false := by
  simp [isCont]
  omega

theorem map_bind_factor (o q2 : Option PyStr) (g : PyStr → PyStr) (ch : Char)
    (hg : ∀ x y, g (x ++ y) = g x ++ y) :
    Option.map g (o.bind fun dp => q2.map fun dq => dp ++ ch :: dq) =
      (Option.map g o).bind fun dp => q2.map fun dq => dp ++ ch :: dq := by
  cases o <;> cases q2 <;> simp [hg]

theorem utf8Go_split_ascii (a : Nat) (ha : a < 0x80) (q : List Nat) :
     ∀ (p : List Nat) (st : Option (Nat × Nat × Nat)),
      utf8Go false st (p ++ a :: q) =
        (utf8Go false st p).bind fun dp =>
          (utf8Go false none q).map fun dq => dp ++ Char.ofNat a :: dq := by
  intro p
  induction p with
  | nil =>
    intro st
    cases st with
    | none =>
      simp only [List.nil_append, utf8Go, if_pos ha]
      cases utf8Go false none q <;> simp [utf8Go]
    | some s =>
      obtain ⟨lead, got, acc⟩ := s
      have hok : (if got = 0 then utf8ContOk lead a else isCont a) = false := by
        split_ifs
        · exact utf8ContOk_ascii lead a ha
        · exact isCont_ascii a ha
      simp only [List.nil_append, utf8Go, hok]
      rw [if_neg (by simp)]
      rw [if_pos ha]
      cases utf8Go false none q <;> simp [utf8Go]
  | cons b p' ih =>
    intro st
    cases st with
    | none =>
      simp only [List.cons_append, utf8Go, List.append_eq]
      split_ifs
      all_goals first
        | contradiction
        | exact ih _
        | (rw [ih none]
           exact map_bind_factor _ _ _ _ (fun x y => rfl))
    | some s =>
      obtain ⟨lead, got, acc⟩ := s
      simp only [List.cons_append, utf8Go, List.append_eq]
      split_ifs
      all_goals first
        | contradiction
        | exact ih _
        | (rw [ih none]
           exact map_bind_factor _ _ _ _ (fun x y => rfl))
        | (rw [ih (some (b, 0, utf8LeadVal b))]
           exact map_bind_factor _ _ _ _ (fun x y => rfl))

theorem pySplit_append (u v : PyStr) (c : Char) :
    pySplit (u ++ c :: v) c = pySplit u c ++ pySplit v c := by
  induction u with
  | nil => simp [pySplit]
  | cons x u' ih =>
    by_cases hx : x = c
    · subst hx
      simp [pySplit, ih]
    · simp only [List.cons_append, pySplit, if_neg hx, List.append_eq]
      rw [ih]
      cases h : pySplit u' c with
      | nil => exact absurd h (pySplit_ne_nil u' c)
      | cons h0 t0 => simp

theorem unquoteItemBytes_malformed (c2 : PyStr)
    (hmal : isEscapeHead ('%' :: c2) = false) :
    unquoteItemBytes (c2.takeWhile (· ≠ '%')) =
      0x25 :: (c2.takeWhile (· ≠ '%')).map cp := by
  match c2 with
  | [] => rfl
  | [x] =>
    by_cases hx : x = '%'
    · subst hx; rfl
    · have hb : decide (x ≠ '%') = true := by simp [hx]
      simp only [List.takeWhile, hb]
      rfl
  | x :: y :: r =>
    by_cases hx : x = '%'
    · subst hx; rfl
    · have hbx : decide (x ≠ '%') = true := by simp [hx]
      by_cases hy : y = '%'
      · subst hy
        simp only [List.takeWhile, hbx]
        rfl
      · have hby : decide (y ≠ '%') = true := by simp [hy]
        simp only [List.takeWhile, hbx, hby]
        have hhex : ¬(isHexDigit x ∧ isHexDigit y) := by
          simp only [isEscapeHead, Bool.and_eq_false_iff] at hmal
          rcases hmal with h | h
          · rcases h with h | h
            · simp at h
            · intro hc; rw [h] at hc; simp at hc
          · intro hc; rw [h] at hc; simp at hc
        simp only [unquoteItemBytes, if_neg hhex]

theorem unquoteChunkBytes_split (c1 c2 : PyStr)
    (hmal : isEscapeHead ('%' :: c2) = false) :
    unquoteChunkBytes (c1 ++ '%' :: c2) =
      unquoteChunkBytes c1 ++ 0x25 :: unquoteChunkBytes c2 := by
  unfold unquoteChunkBytes
  rw [pySplit_append]
  obtain ⟨t1, h1⟩ := pySplit_head c1 '%'
  obtain ⟨t2, h2⟩ := pySplit_head c2 '%'
  rw [h1, h2]
  simp only [List.cons_append, List.append_eq]
  simp only [List.map_append, List.map_cons, List.flatten_append,
    List.flatten_cons]
  rw [unquoteItemBytes_malformed c2 hmal]
  simp [List.append_assoc]

theorem chunk_decode_split (c1 c2 : PyStr)
    (hmal : isEscapeHead ('%' :: c2) = false) :
    utf8DecodeE false (unquoteChunkBytes (c1 ++ '%' :: c2)) =
      (utf8DecodeE false (unquoteChunkBytes c1)).bind fun d1 =>
        (utf8DecodeE false (unquoteChunkBytes c2)).map fun d2 => d1 ++ '%' :: d2 := by
  rw [unquoteChunkBytes_split c1 c2 hmal]
  have h := utf8Go_split_ascii 0x25 (by omega) (unquoteChunkBytes c2) (unquoteChunkBytes c1) none
  rw [show Char.ofNat 0x25 = '%' from by decide] at h
  exact h

/-- One step of `runsBy`. -/
def runsStep (p : Char → Bool) (c : Char) (rs : List (Bool × PyStr)) :
    List (Bool × PyStr) :=
  match rs with
  | (b, seg) :: t => if p c = b then (b, c :: seg) :: t else (p c, [c]) :: (b, seg) :: t
  | [] => [(p c, [c])]

theorem runsBy_runsStep (p : Char → Bool) (c : Char) (rest : PyStr) :
    runsBy p (c :: rest) = runsStep p c (runsBy p rest) := by
  cases h : runsBy p rest with
  | nil => simp [runsBy, runsStep, h]
  | cons pr t =>
    obtain ⟨b, seg⟩ := pr
    simp [runsBy, runsStep, h]

/-- Concatenation of run lists, merging the boundary runs when their
tags agree. -/
def mergeRuns : List (Bool × PyStr) → List (Bool × PyStr) → List (Bool × PyStr)
  | [], ys => ys
  | [x], [] => [x]
  | [x], y :: tl => if x.1 = y.1 then (x.1, x.2 ++ y.2) :: tl else x :: y :: tl
  | x :: x2 :: xs, ys => x :: mergeRuns (x2 :: xs) ys

theorem runsStep_mergeRuns (p : Char → Bool) (c : Char) :
    ∀ (rx ry : List (Bool × PyStr)),
      runsStep p c (mergeRuns rx ry) = mergeRuns (runsStep p c rx) ry := by
  intro rx
  induction rx with
  | nil =>
    intro ry
    cases ry with
    | nil => rfl
    | cons y tl =>
      obtain ⟨by0, sy⟩ := y
      simp only [mergeRuns, runsStep]
      split_ifs <;> simp_all [mergeRuns, runsStep]
  | cons x1 rx' ih =>
    intro ry
    obtain ⟨b1, s1⟩ := x1
    cases rx' with
    | nil =>
      cases ry with
      | nil =>
        simp only [mergeRuns, runsStep]
        split_ifs <;> simp_all [mergeRuns, runsStep]
      | cons y tl =>
        obtain ⟨by0, sy⟩ := y
        simp only [mergeRuns, runsStep]
        split_ifs <;> simp_all [mergeRuns, runsStep]
    | cons x2 rx'' =>
      cases ry with
      | nil =>
        simp only [mergeRuns, runsStep]
        split_ifs <;> simp_all [mergeRuns, runsStep]
      | cons y tl =>
        obtain ⟨by0, sy⟩ := y
        simp only [mergeRuns, runsStep]
        split_ifs <;> simp_all [mergeRuns, runsStep]

theorem runsBy_append (p : Char → Bool) (y : PyStr) :
    ∀ x : PyStr, runsBy p (x ++ y) = mergeRuns (runsBy p x) (runsBy p y) := by
  intro x
  induction x with
  | nil => simp [runsBy, mergeRuns]
  | cons c x' ih =>
    rw [List.cons_append, runsBy_runsStep, ih, runsBy_runsStep,
      runsStep_mergeRuns]

theorem unquoteSegs_cons_true (run : PyStr) (t : List (Bool × PyStr)) :
    unquoteSegs false ((true, run) :: t) =
      (utf8DecodeE false (unquoteChunkBytes run)).bind fun d =>
        (unquoteSegs false t).map fun r => d ++ r := by
  simp only [unquoteSegs]
  cases utf8DecodeE false (unquoteChunkBytes run) <;>
    cases unquoteSegs false t <;> simp

theorem unquoteSegs_cons_false (run : PyStr) (t : List (Bool × PyStr)) :
    unquoteSegs false ((false, run) :: t) =
      (unquoteSegs false t).map fun r => run ++ r := rfl

theorem unquoteSegs_cons_mal (s2 : PyStr) (tl : List (Bool × PyStr))
    (hmal : isEscapeHead ('%' :: s2) = false) :
    unquoteSegs false ((true, '%' :: s2) :: tl) =
      (unquoteSegs false ((true, s2) :: tl)).map ('%' :: ·) := by
  rw [unquoteSegs_cons_true ('%' :: s2) tl]
  have h := chunk_decode_split [] s2 hmal
  simp only [List.nil_append] at h
  rw [h, unquoteSegs_cons_true s2 tl]
  rw [show utf8DecodeE false (unquoteChunkBytes []) = some [] from rfl]
  cases hB : utf8DecodeE false (unquoteChunkBytes s2) <;>
    cases hC : unquoteSegs false tl <;> simp

theorem unquoteSegs_mergeRuns_mal (s2 : PyStr) (tl : List (Bool × PyStr))
    (hmal : isEscapeHead ('%' :: s2) = false) :
    ∀ rx : List (Bool × PyStr),
      unquoteSegs false (mergeRuns rx ((true, '%' :: s2) :: tl)) =
        (unquoteSegs false rx).bind fun dx =>
          (unquoteSegs false ((true, s2) :: tl)).map fun dy => dx ++ '%' :: dy := by
  intro rx
  induction rx with
  | nil =>
    simp only [mergeRuns]
    rw [unquoteSegs_cons_mal s2 tl hmal]
    cases hU : unquoteSegs false ((true, s2) :: tl) <;> simp [unquoteSegs]
  | cons x1 rx' ih =>
    obtain ⟨b1, s1⟩ := x1
    cases rx' with
    | nil =>
      cases b1 with
      | true =>
        have hm : mergeRuns [((true : Bool), s1)] ((true, '%' :: s2) :: tl) =
            (true, s1 ++ '%' :: s2) :: tl := by simp [mergeRuns]
        rw [hm, unquoteSegs_cons_true (s1 ++ '%' :: s2) tl,
          chunk_decode_split s1 s2 hmal,
          unquoteSegs_cons_true s1 ([] : List (Bool × PyStr)),
          unquoteSegs_cons_true s2 tl]
        cases hA : utf8DecodeE false (unquoteChunkBytes s1) <;>
          cases hB : utf8DecodeE false (unquoteChunkBytes s2) <;>
          cases hC : unquoteSegs false tl <;>
          simp [unquoteSegs, List.append_assoc]
      | false =>
        have hm : mergeRuns [((false : Bool), s1)] ((true, '%' :: s2) :: tl) =
            (false, s1) :: (true, '%' :: s2) :: tl := by simp [mergeRuns]
        rw [hm, unquoteSegs_cons_false s1 ((true, '%' :: s2) :: tl),
          unquoteSegs_cons_mal s2 tl hmal,
          unquoteSegs_cons_false s1 ([] : List (Bool × PyStr))]
        cases hU : unquoteSegs false ((true, s2) :: tl) <;> simp [unquoteSegs]
    | cons x2 rx'' =>
      cases b1 with
      | true =>
        rw [show mergeRuns ((true, s1) :: x2 :: rx'') ((true, '%' :: s2) :: tl) =
            (true, s1) :: mergeRuns (x2 :: rx'') ((true, '%' :: s2) :: tl) from rfl,
          unquoteSegs_cons_true s1 (mergeRuns (x2 :: rx'') ((true, '%' :: s2) :: tl)),
          ih, unquoteSegs_cons_true s1 (x2 :: rx'')]
        cases hA : utf8DecodeE false (unquoteChunkBytes s1) <;>
          cases hX : unquoteSegs false (x2 :: rx'') <;>
          cases hU : unquoteSegs false ((true, s2) :: tl) <;>
          simp [List.append_assoc]
      | false =>
        rw [show mergeRuns ((false, s1) :: x2 :: rx'') ((true, '%' :: s2) :: tl) =
            (false, s1) :: mergeRuns (x2 :: rx'') ((true, '%' :: s2) :: tl) from rfl,
          unquoteSegs_cons_false s1 (mergeRuns (x2 :: rx'') ((true, '%' :: s2) :: tl)),
          ih, unquoteSegs_cons_false s1 (x2 :: rx'')]
        cases hX : unquoteSegs false (x2 :: rx'') <;>
          cases hU : unquoteSegs false ((true, s2) :: tl) <;>
          simp [List.append_assoc]

theorem unquoteSegs_skip_empty (tl : List (Bool × PyStr)) :
    unquoteSegs false ((true, ([] : PyStr)) :: tl) = unquoteSegs false tl := by
  rw [unquoteSegs_cons_true [] tl,
    show utf8DecodeE false (unquoteChunkBytes []) = some [] from rfl]
  cases hC : unquoteSegs false tl <;> simp

theorem unquote_split_mal (u v : PyStr) (hmal : isEscapeHead ('%' :: v) = false) :
    unquoteSegs false (runsBy isAsciiCp (u ++ '%' :: v)) =
      (unquoteSegs false (runsBy isAsciiCp u)).bind fun du =>
        (unquoteSegs false (runsBy isAsciiCp v)).map fun dv => du ++ '%' :: dv := by
  rw [runsBy_append isAsciiCp ('%' :: v) u, runsBy_runsStep isAsciiCp '%' v]
  cases hv : runsBy isAsciiCp v with
  | nil =>
    rw [show runsStep isAsciiCp '%' [] = [((true : Bool), ['%'])] from rfl]
    rw [unquoteSegs_mergeRuns_mal [] [] (by decide) (runsBy isAsciiCp u)]
    rw [show unquoteSegs false [((true : Bool), ([] : PyStr))] = some [] from rfl]
    simp [unquoteSegs]
  | cons pr t =>
    obtain ⟨b, seg⟩ := pr
    have hflat : seg ++ segsFlatten t = v := by
      have hf := runsBy_flatten isAsciiCp v
      rw [hv] at hf
      simpa [segsFlatten] using hf
    cases b with
    | true =>
      have hseg : isEscapeHead ('%' :: seg) = false := by
        cases seg with
        | nil => rfl
        | cons a seg' =>
          cases seg' with
          | nil => rfl
          | cons b2 r =>
            rw [← hflat] at hmal
            simpa [isEscapeHead] using hmal
      rw [show runsStep isAsciiCp '%' ((true, seg) :: t) = (true, '%' :: seg) :: t
        from by simp [runsStep, show isAsciiCp '%' = true from by decide]]
      rw [unquoteSegs_mergeRuns_mal seg t hseg (runsBy isAsciiCp u)]
    | false =>
      rw [show runsStep isAsciiCp '%' ((false, seg) :: t) =
          ((true : Bool), ['%']) :: (false, seg) :: t
        from by simp [runsStep, show isAsciiCp '%' = true from by decide]]
      rw [unquoteSegs_mergeRuns_mal [] ((false, seg) :: t) (by decide)
        (runsBy isAsciiCp u)]
      rw [unquoteSegs_skip_empty ((false, seg) :: t)]

/-- A string without `%` has no well-formed escape. -/
theorem hasEscapeTriple_not_mem (s : PyStr) (h : '%' ∉ s) :
    hasEscapeTriple s = false := by
  induction s with
  | nil => rfl
  | cons c t ih =>
    have hc : c ≠ '%' := fun hcc => h (hcc ▸ List.mem_cons_self c t)
    have ht : hasEscapeTriple t = false :=
      ih fun hm => h (List.mem_cons_of_mem c hm)
    have hh : isEscapeHead (c :: t) = false := by
      cases t with
      | nil => rfl
      | cons a t' =>
        cases t' with
        | nil => rfl
        | cons b r => simp [isEscapeHead, hc]
    simp [hasEscapeTriple, hh, ht]

/-- In replace mode the `%`-membership guard of `percent_decode` is
immaterial: the decode loop is the identity on `%`-free strings. -/
theorem percentDecode_eq_unquote (w : PyStr) :
    percentDecode w false = unquoteSegs false (runsBy isAsciiCp w) := by
  unfold percentDecode
  split_ifs with h
  · rfl
  · exact (unquoteSegs_runsBy_id false w (hasEscapeTriple_not_mem w h)).symm

/-- The decode of a string factors at any `%` that does not begin a
well-formed escape: that `%` stays literally in the output between the
decodes of the two surrounding parts. -/
theorem percentDecode_split_mal (u v : PyStr)
    (hmal : isEscapeHead ('%' :: v) = false) :
    percentDecode (u ++ '%' :: v) false =
      (percentDecode u false).bind fun du =>
        (percentDecode v false).map fun dv => du ++ '%' :: dv := by
  rw [percentDecode_eq_unquote (u ++ '%' :: v), percentDecode_eq_unquote u,
    percentDecode_eq_unquote v]
  exact unquote_split_mal u v hmal

/-- The `+`-to-space substitution distributes over a split at `%`. -/
theorem pyReplaceChar_plus_append (u v : PyStr) :
    pyReplaceChar (u ++ '%' :: v) '+' ' ' =
      pyReplaceChar u '+' ' ' ++ '%' :: pyReplaceChar v '+' ' ' := by
  simp [pyReplaceChar]

/-- The `+`-to-space substitution does not create or destroy well-formed
escape heads. -/
theorem isEscapeHead_plus (v : PyStr) :
    isEscapeHead ('%' :: pyReplaceChar v '+' ' ') = isEscapeHead ('%' :: v) := by
  cases v with
  | nil => rfl
  | cons a v' =>
    cases v' with
    | nil => rfl
    | cons b r =>
      have hfh : ∀ c : Char,
          isHexDigit (if c = '+' then ' ' else c) = isHexDigit c := by
        intro c
        by_cases hc : c = '+'
        · subst hc; decide
        · rw [if_neg hc]
      simp only [pyReplaceChar, List.map_cons, isEscapeHead]
      rw [hfh a, hfh b]

/-- C7: percent_decode and percent_decode_plus are lenient for every
input string.  In the default replace mode both always succeed (never
raise); every `%` that does not begin a well-formed two-hex-digit escape
is kept literally in the output, the decode factoring into the decode of
the part before it, the literal `%`, and the decode of the part after it
(so malformed sequences pass through even when well-formed escapes occur
elsewhere in the string); and a string with no well-formed escape at all
is returned unchanged by both error modes (for `percent_decode_plus`,
after its usual `+`-to-space substitution). -/
theorem claim7_lenient_decode (s : PyStr) :
    (percentDecode s false).isSome ∧
    (percentDecodePlus s false).isSome ∧
    (∀ u v, s = u ++ '%' :: v → isEscapeHead ('%' :: v) = false →
      percentDecode s false =
        ((percentDecode u false).bind fun du =>
          (percentDecode v false).map fun dv => du ++ '%' :: dv) ∧
      percentDecodePlus s false =
        ((percentDecodePlus u false).bind fun du =>
          (percentDecodePlus v false).map fun dv => du ++ '%' :: dv)) ∧
    (hasEscapeTriple s = false →
      percentDecode s true = some s ∧
      percentDecode s false = some s ∧
      percentDecodePlus s false = some (pyReplaceChar s '+' ' ')) := by
  have htotal : ∀ w : PyStr, (percentDecode w false).isSome := by
    intro w
    unfold percentDecode
    split_ifs
    · exact unquoteSegs_replace_total _
    · simp
  have hid : ∀ (strict : Bool) (w : PyStr), hasEscapeTriple w = false →
      percentDecode w strict = some w := by
    intro strict w h
    unfold percentDecode
    split_ifs
    · exact unquoteSegs_runsBy_id strict w h
    · rfl
  refine ⟨htotal s, htotal _, ?_, ?_⟩
  · intro u v hs hm
    subst hs
    refine ⟨percentDecode_split_mal u v hm, ?_⟩
    unfold percentDecodePlus
    rw [pyReplaceChar_plus_append u v]
    exact percentDecode_split_mal _ _ (by rw [isEscapeHead_plus]; exact hm)
  · intro h
    refine ⟨hid true s h, hid false s h, ?_⟩
    unfold percentDecodePlus
    exact hid false _ (by rw [hasEscapeTriple_plus]; exact h)

/-! ## Claim C10: hostname non-emptiness invariant -/

/-- Inversion for a successful `Option` bind. -/
theorem optBindSome {α β : Type} {o : Option α} {f : α → Option β} {b : β}
    (h : o >>= f = some b) : ∃ a, o = some a ∧ f a = some b := by
  cases o with
  | none => exact Option.noConfusion h
  | some a => exact ⟨a, rfl, h⟩

/-- `pyJoin` of at least two parts is nonempty. -/
theorem pyJoin_len2_ne_nil (l : List PyStr) (c : Char) (h : 2 ≤ l.length) :
    pyJoin l c ≠ [] := by
  match l with
  | [] => simp at h
  | [x] => simp at h
  | x :: y :: t => exact pyJoin_ne_nil_of_two x y t c

/-- `pyJoin` of a nonempty list of nonempty parts is nonempty. -/
theorem pyJoin_elems_ne_nil (ls : List PyStr) (c : Char) (hne : ls ≠ [])
    (hel : ∀ x ∈ ls, x ≠ []) : pyJoin ls c ≠ [] := by
  match ls with
  | [] => exact absurd rfl hne
  | [x] => exact hel x (by simp)
  | x :: y :: t => exact pyJoin_ne_nil_of_two x y t c

/-- The dotted-quad text of an IPv4 address is nonempty. -/
theorem ipv4Compressed_ne_nil (v : Nat) : ipv4Compressed v ≠ [] := by
  simp only [ipv4Compressed]
  exact pyJoin_ne_nil_of_two _ _ _ _

/-- Compressing the 8 hextets always leaves at least two join parts. -/
theorem ipv6CompressHextets_len (hx0 : List PyStr) (bs bl : Nat)
    (h8 : hx0.length = 8) : 2 ≤ (ipv6CompressHextets hx0 bs bl).length := by
  simp only [ipv6CompressHextets]
  split_ifs <;>
    simp_all [List.length_append, List.length_take, List.length_drop]
  omega

/-- The compressed text of an IPv6 address is nonempty. -/
theorem ipv6Compressed_ne_nil (n : Nat) (sc : Option PyStr) :
    ipv6Compressed n sc ≠ [] := by
  have hlen : 2 ≤ (ipv6CompressHextets ((ipv6Hextets n).map natToHexLower)
      (bestZeroRun (ipv6Hextets n)).1 (bestZeroRun (ipv6Hextets n)).2).length :=
    ipv6CompressHextets_len _ _ _ (by simp [ipv6Hextets])
  simp only [ipv6Compressed]
  intro hc
  exact pyJoin_len2_ne_nil _ ':' hlen (List.append_eq_nil.mp hc).1

/-- `ToASCII` only produces nonempty labels. -/
theorem toASCIILabel_ne_nil (l x : PyStr) (h : toASCIILabel l = some x) :
    x ≠ [] := by
  have hx4 : pystr "xn--" = 'x' :: 'n' :: '-' :: '-' :: [] := by decide
  simp only [toASCIILabel] at h
  split_ifs at h
  all_goals obtain rfl := Option.some.inj h
  all_goals simp_all [List.length_pos, hx4]

/-- `re.split` always returns at least one part. -/
theorem pySplitP_ne_nil (s : PyStr) (p : Char → Bool) : pySplitP s p ≠ [] := by
  cases s with
  | nil => simp [pySplitP]
  | cons x xs =>
    simp only [pySplitP]
    split_ifs
    · simp
    · cases h : pySplitP xs p with
      | nil => simp
      | cons a b => simp

/-- The IDNA encoding of a nonempty hostname is nonempty. -/
theorem idnaEncode_ne_nil (s e : PyStr) (hs : s ≠ [])
    (he : idnaEncode s = some e) : e ≠ [] := by
  simp only [idnaEncode] at he
  rw [if_neg hs] at he
  by_cases ha : s.all isAsciiCp
  · rw [if_pos ha] at he
    split_ifs at he
    obtain rfl := Option.some.inj he
    exact hs
  · rw [if_neg ha] at he
    by_cases htr : (pySplitP s isIdnaDot).getLast? = some []
    · simp only [if_pos htr] at he
      obtain ⟨ls, _, hge⟩ := Option.map_eq_some'.mp he
      rw [← hge]
      simp
    · simp only [if_neg htr] at he
      obtain ⟨ls, hls, hge⟩ := Option.map_eq_some'.mp he
      rw [← hge]
      simp only [List.append_nil]
      have hfacts := mapOpt_eq_some toASCIILabel (pySplitP s isIdnaDot) ls hls
      refine pyJoin_elems_ne_nil ls '.' ?_ ?_
      · intro hnil
        subst hnil
        exact pySplitP_ne_nil s isIdnaDot (List.length_eq_zero.mp hfacts.1.symm)
      · intro y hy
        obtain ⟨x, _, hx⟩ := hfacts.2 y hy
        exact toASCIILabel_ne_nil x y hx

/-- `normalize_hostname` of a nonempty hostname is nonempty. -/
theorem normalizeHostname_ne_nil (s nh : PyStr) (hs : s ≠ [])
    (h : normalizeHostname s = some nh) : nh ≠ [] := by
  unfold normalizeHostname at h
  obtain ⟨e, he, h2⟩ := optBindSome h
  have hen : e ≠ [] := idnaEncode_ne_nil s e hs he
  simp only [] at h2
  by_cases hif : s = pyLower e
  · rw [if_pos hif] at h2
    obtain rfl := Option.some.inj h2
    simpa [pyLower] using hen
  · rw [if_neg hif] at h2
    obtain ⟨w, _, h3⟩ := optBindSome h2
    obtain rfl := Option.some.inj h3
    simpa [pyLower] using hen

/-- A Python-truthiness bridge. -/
theorem strTruthy_of_ne_nil (h : PyStr) (hne : h ≠ []) :
    strTruthy (some h) = true := by
  cases h with
  | nil => exact absurd rfl hne
  | cons c t => rfl

/-- A successful bracketed-IPv6 hostname parse stores a nonempty text. -/
theorem parseIpv6Hostname_ok (hn : PyStr) (p : PyStr × Option IpAddr)
    (h : parseIpv6Hostname hn = .ok p) : p.1 ≠ [] := by
  unfold parseIpv6Hostname at h
  split_ifs at h
  cases hA : ipv6AddressParse (hn.drop 1).dropLast with
  | none => rw [hA] at h; exact PRes.noConfusion h
  | some q =>
    obtain ⟨v, sc⟩ := q
    rw [hA] at h
    simp only [] at h
    obtain rfl := PRes.ok.inj h
    exact ipv6Compressed_ne_nil v sc

/-- A successful hostname parse stores a nonempty text. -/
theorem parseHostname_ok_ne_nil (hn : PyStr) (p : PyStr × Option IpAddr)
    (h : parseHostname hn = .ok p) : p.1 ≠ [] := by
  unfold parseHostname at h
  split_ifs at h with hbr hemp
  · exact parseIpv6Hostname_ok hn p h
  · cases h4 : parseIpv4Address hn with
    | some v =>
      rw [h4] at h
      simp only [] at h
      obtain rfl := PRes.ok.inj h
      exact ipv4Compressed_ne_nil v
    | none =>
      rw [h4] at h
      simp only [] at h
      cases h5 : normalizeHostname hn with
      | none => rw [h5] at h; exact PRes.noConfusion h
      | some nh =>
        rw [h5] at h
        simp only [] at h
        split_ifs at h
        obtain rfl := PRes.ok.inj h
        exact normalizeHostname_ne_nil hn nh hemp h5

/-- A successful host parse stores a nonempty hostname text. -/
theorem parseHost_ok_ne_nil (host : PyStr)
    (hp : (PyStr × Option IpAddr) × Option Int)
    (h : parseHost host = .ok hp) : hp.1.1 ≠ [] := by
  simp only [parseHost] at h
  split_ifs at h with h1 h2
  · obtain ⟨w, hw, h3⟩ := PRes.bind_ok _ _ _ h
    obtain rfl := PRes.ok.inj h3
    exact parseHostname_ok_ne_nil host w hw
  · cases hpi : pyInt (pyRPartition host ':').2.2 10 with
    | none => rw [hpi] at h; exact PRes.noConfusion h
    | some pnum =>
      rw [hpi] at h
      simp only [] at h
      split_ifs at h
      obtain ⟨w, hw, h3⟩ := PRes.bind_ok _ _ _ h
      obtain rfl := PRes.ok.inj h3
      exact parseHostname_ok_ne_nil _ w hw
  · obtain ⟨w, hw, h3⟩ := PRes.bind_ok _ _ _ h
    obtain rfl := PRes.ok.inj h3
    exact parseHostname_ok_ne_nil _ w hw

/-- The `host` setter always stores a truthy hostname on success. -/
theorem hostSet_truthy (r r' : URLInfo) (hstr : PyStr)
    (hok : hostSet r hstr = .ok r') : strTruthy r'.hostname = true := by
  unfold hostSet at hok
  obtain ⟨hp, hhp, h2⟩ := PRes.bind_ok _ _ _ hok
  have hne := parseHost_ok_ne_nil hstr hp hhp
  simp only [] at h2
  split_ifs at h2
  · obtain rfl := PRes.ok.inj h2
    exact strTruthy_of_ne_nil _ hne
  · obtain rfl := PRes.ok.inj h2
    exact strTruthy_of_ne_nil _ hne

/-- The `authority` setter always stores a truthy hostname on success. -/
theorem authoritySet_truthy (r r' : URLInfo) (a : PyStr)
    (hok : authoritySet r a = .ok r') : strTruthy r'.hostname = true := by
  unfold authoritySet at hok
  simp only [] at hok
  obtain ⟨w, _, h2⟩ := PRes.bind_ok _ _ _ hok
  exact hostSet_truthy w r' _ h2

/-- C7 witness: the mixed input `%41%zz` holds a well-formed escape and
a malformed one; the decode succeeds and factors at the malformed `%`,
yielding `A%zz` with the malformed sequence kept literally. -/
theorem claim7_witness :
    (percentDecode (pystr "%41%zz") false).isSome ∧
    (percentDecodePlus (pystr "%41%zz") false).isSome ∧
    pystr "%41%zz" = pystr "%41" ++ '%' :: pystr "zz" ∧
    isEscapeHead ('%' :: pystr "zz") = false ∧
    percentDecode (pystr "%41%zz") false =
      ((percentDecode (pystr "%41") false).bind fun du =>
        (percentDecode (pystr "zz") false).map fun dv => du ++ '%' :: dv) ∧
    percentDecode (pystr "%41%zz") false = some (pystr "A%zz") :=
  ⟨(claim7_lenient_decode (pystr "%41%zz")).1,
   (claim7_lenient_decode (pystr "%41%zz")).2.1,
   by decide, by decide,
   ((claim7_lenient_decode (pystr "%41%zz")).2.2.1 (pystr "%41") (pystr "zz")
      (by decide) (by decide)).1,
   by decide⟩

/-- C10: whenever `URLInfo.parse` succeeds with a record whose scheme is
in the relative-scheme table, the record's hostname is a non-empty string
(Python-truthy, neither `None` nor `''`): the authority of a relative
scheme always passes through hostname parsing, which raises on an empty
or absent host component. -/
theorem claim10_hostname_nonempty (url : PyStr) (ds : Option PyStr)
    (r : URLInfo) (hok : parse url ds = .ok r)
    (hrel : isRelativeScheme r.scheme = true) :
    strTruthy r.hostname = true := by
  simp only [parse] at hok
  split_ifs at hok
  all_goals
    first
      | (obtain rfl := PRes.ok.inj hok
         exact absurd hrel (by assumption))
      | (split at hok
         · exact PRes.noConfusion hok
         · rename_i w heq
           obtain rfl := PRes.ok.inj hok
           exact authoritySet_truthy _ w _ heq)

/-- C10 witness: the invariant at the concrete parse of `http://x/`. -/
theorem claim10_witness :
    parse (pystr "http://x/") (some (pystr "http")) =
      .ok { scheme := some (pystr "http"), hostname := some (pystr "x"),
            port := some 80, username := some [], password := some [],
            path := some (pystr "/"), query := some [], fragment := some [],
            address := none } ∧
    isRelativeScheme (some (pystr "http")) = true ∧
    strTruthy (some (pystr "x")) = true :=
  ⟨by decide, by decide,
    claim10_hostname_nonempty (pystr "http://x/") (some (pystr "http"))
      { scheme := some (pystr "http"), hostname := some (pystr "x"),
        port := some 80, username := some [], password := some [],
        path := some (pystr "/"), query := some [], fragment := some [],
        address := none }
      (by decide) (by decide)⟩

end Wbull
